import Mathlib

/-!
Verification of the Pebble lexical scanner design.

The repository specifies a scanner for the Pebble language.  Its lexical
shapes live in the TextMate grammar (src/unnamed/part_001): the regexes for
numbers, strings, escapes, characters, comments, keywords and injunctions.
The procedural scanner itself is described by the design documents and the
specification (sections 3, 4, 7): the definitions below embed it, taking
every character class and word set verbatim from the regexes of the grammar and
the control structure from the spec.  The core `fs` module (part_004) and
the editor hover provider (part_000) are embedded directly from their code.
-/

namespace Pebble

/-- Characters are scanned from an in-memory list, front to back. -/
abbrev Input := List Char

/-- Number sub-kinds, from spec section 3 and the numeric regexes of
part_001: constant.numeric.hex, octal, binary, decimal (with its fractional
alternative) and exponent. -/
inductive NumberKind where
  | Decimal
  | Hexadecimal
  | Octal
  | Binary
  | Exponent
  | DecimalFraction
  deriving DecidableEq, Repr

/-- Lexical error kinds, from spec section 7. -/
inductive LexErrorKind where
  | UnknownInjunction
  | MalformedNumericLiteral
  | AdjacentIdentifier
  | UnterminatedString
  | InterpolationTooDeep
  | InvalidCharacterLiteral
  | DanglingEscape
  | UnterminatedComment
  | UnexpectedCharacter
  deriving DecidableEq, Repr

/-- Decoded escape sequences, from the string_character_escape regex of
part_001: a 2-hex-digit byte, a code point (4 hex digits or braced run),
an octal byte, or a passthrough literal character. -/
inductive Esc where
  | byteVal (n : Nat)
  | codePoint (n : Nat)
  | octalByte (n : Nat)
  | lit (c : Char)
  deriving DecidableEq, Repr

mutual
/-- Tokens of spec section 3.  A String token holds ordered segments. -/
inductive Token where
  | number (kind : NumberKind) (big : Bool) (lexeme : List Char)
  | string (segments : List Segment)
  | character (e : Esc)
  | bracket (c : Char)
  | keyword (w : String) (literalWord : Bool)
  | identifier (w : String)
  | injunction (w : String)
  | terminator (c : Char)
  | operator (lexeme : List Char)
  | comment (doc : Bool) (text : List Char)
  | endOfInput
  | lexError (k : LexErrorKind)
  deriving Repr

/-- A string segment is a literal text run or the fully tokenized
contents of one interpolation region (spec section 3, StringToken). -/
inductive Segment where
  | literal (text : List Char)
  | interpolation (toks : List Token)
  deriving Repr
end

/-! ## Character classes, verbatim from the part_001 regexes -/

/-- Hex digits: [\dA-Fa-f]. -/
def isHexDigit (c : Char) : Bool :=
  c.isDigit || (('A' ≤ c) && (c ≤ 'F')) || (('a' ≤ c) && (c ≤ 'f'))

/-- Octal digits: [0-7]. -/
def isOctalDigit (c : Char) : Bool :=
  ('0' ≤ c) && (c ≤ '7')

/-- Binary digits: [0-1]. -/
def isBinaryDigit (c : Char) : Bool :=
  c = '0' || c = '1'

/-- Identifier continuation characters: alphanumeric or underscore (\w). -/
def isWordChar (c : Char) : Bool :=
  c.isAlphanum || c = '_'

/-- Identifier start characters: alphabetic or underscore. -/
def isWordStart (c : Char) : Bool :=
  c.isAlpha || c = '_'

/-- Whitespace skipped between tokens. -/
def isWsChar (c : Char) : Bool :=
  c = ' ' || c = '\t' || c = '\n' || c = '\r'

/-- Operator punctuation characters (spec section 4.8 operator runs). -/
def isOpChar (c : Char) : Bool :=
  ['+', '-', '*', '/', '%', '=', '<', '>', '!', '&', '|', '^', '~', '?', '.', ':', '#'].contains c

/-- Bracket characters (spec section 4.8). -/
def isBracketChar (c : Char) : Bool :=
  ['{', '}', '[', ']', '(', ')'].contains c

def hexDigitVal (c : Char) : Nat :=
  if c.isDigit then c.toNat - '0'.toNat
  else if 'a' ≤ c then c.toNat - 'a'.toNat + 10
  else c.toNat - 'A'.toNat + 10

def hexVal (ds : List Char) : Nat :=
  ds.foldl (fun acc c => 16 * acc + hexDigitVal c) 0

def octVal (ds : List Char) : Nat :=
  ds.foldl (fun acc c => 8 * acc + (c.toNat - '0'.toNat)) 0

/-! ## Word classifier (spec section 4.2; sets from part_001 lines 109, 123, 127) -/

/-- The injunction set, verbatim from the part_001 injunction regex. -/
def injunctionSet : List String :=
  ["use", "public", "prepend", "type", "let", "function", "const",
   "enum", "class", "record", "interface", "module", "implement", "tests"]

/-- The keyword set, verbatim from the part_001 keyword regex. -/
def keywordSet : List String :=
  ["for", "fn", "in", "while", "break", "continue", "crash", "try",
   "recover", "println", "if", "else", "from", "as", "return", "match",
   "case", "loop"]

/-- The literal-word set, verbatim from the part_001 literal regex. -/
def literalWordSet : List String :=
  ["true", "false", "self", "core", "static", "readonly"]

/-- Modelled from the spec: the Word Classifier of section 4.2 (the
procedural scanner is absent from the repository, which holds only the
regexes; the three word sets are taken verbatim from part_001).
Classification order: at-prefixed word in the injunction set is an
Injunction; at-prefixed word outside it is an UnknownInjunction error;
a bare keyword-set word is a Keyword; a bare literal-set word is a
Keyword with the literal marker; anything else is an Identifier. -/
def classifyWord (atPrefixed : Bool) (w : String) : Token :=
  if atPrefixed then
    if injunctionSet.contains w then .injunction w
    else .lexError .UnknownInjunction
  else if keywordSet.contains w then .keyword w false
  else if literalWordSet.contains w then .keyword w true
  else .identifier w

/-- Modelled from the spec: word scanning (section 4.2) consumes the
maximal run of word characters after the optional at-sign and classifies
it. -/
def scanWord (input : Input) : Token × Input :=
  match input with
  | '@' :: rest =>
      (classifyWord true (String.mk (rest.takeWhile isWordChar)),
       rest.dropWhile isWordChar)
  | _ =>
      (classifyWord false (String.mk (input.takeWhile isWordChar)),
       input.dropWhile isWordChar)

/-! ## Numeric literal scanner (spec section 4.3; digit classes and
prefixes from the part_001 number regexes) -/

/-- Base prefixes of the part_001 number regexes: 0x/0X hex, 0o/0O octal,
0b/0B binary, each paired with its digit class. -/
def baseRadix (c : Char) : Option (NumberKind × (Char → Bool)) :=
  if c = 'x' || c = 'X' then some (.Hexadecimal, isHexDigit)
  else if c = 'o' || c = 'O' then some (.Octal, isOctalDigit)
  else if c = 'b' || c = 'B' then some (.Binary, isBinaryDigit)
  else none

/-- Modelled from the spec: the boundary rule of section 4.3 step 3. A
decimal digit right after the literal is a MalformedNumericLiteral (the
0b102 example of section 8); a letter or underscore is an
AdjacentIdentifier; otherwise the number token stands. -/
def numBoundary (kind : NumberKind) (big : Bool) (lexeme : List Char)
    (rest : Input) : Token × Input :=
  match rest with
  | c :: _ =>
      if c.isDigit then (.lexError .MalformedNumericLiteral, rest)
      else if isWordStart c then (.lexError .AdjacentIdentifier, rest)
      else (.number kind big lexeme, rest)
  | [] => (.number kind big lexeme, [])

/-- Modelled from the spec: the decimal path of section 4.3 step 2.
Consume the maximal decimal run; a dot is a fractional part only when a
digit follows, otherwise it is left for the next token; an exponent is an
unsigned digit run after e; the big suffix n is allowed only on the plain
integer form (section 9 treats a suffix on fraction or exponent forms as
MalformedNumericLiteral). -/
def scanDecimal (input : Input) : Token × Input :=
  let ds := input.takeWhile Char.isDigit
  let rest := input.dropWhile Char.isDigit
  match rest with
  | '.' :: r =>
      match r with
      | d :: _ =>
          if d.isDigit then
            let fs := r.takeWhile Char.isDigit
            let r2 := r.dropWhile Char.isDigit
            match r2 with
            | 'n' :: _ => (.lexError .MalformedNumericLiteral, r2)
            | _ => numBoundary .DecimalFraction false (ds ++ '.' :: fs) r2
          else (.number .Decimal false ds, '.' :: r)
      | [] => (.number .Decimal false ds, '.' :: r)
  | 'e' :: r =>
      match r with
      | d :: _ =>
          if d.isDigit then
            let es := r.takeWhile Char.isDigit
            let r2 := r.dropWhile Char.isDigit
            match r2 with
            | 'n' :: _ => (.lexError .MalformedNumericLiteral, r2)
            | _ => numBoundary .Exponent false (ds ++ 'e' :: es) r2
          else numBoundary .Decimal false ds rest
      | [] => numBoundary .Decimal false ds rest
  | 'n' :: r => numBoundary .Decimal true (ds ++ ['n']) r
  | _ => numBoundary .Decimal false ds rest

/-- Modelled from the spec: the Numeric Literal Scanner of section 4.3.
A 0x/0o/0b start switches to the digit class of that base and consumes the
maximal digit run (zero digits is a MalformedNumericLiteral), with an
optional big suffix n; otherwise the decimal path runs. -/
def scanNumber (input : Input) : Token × Input :=
  match input with
  | '0' :: p :: rest =>
      match baseRadix p with
      | some (kind, isD) =>
          let ds := rest.takeWhile isD
          let rest1 := rest.dropWhile isD
          if ds.isEmpty then (.lexError .MalformedNumericLiteral, rest1)
          else
            match rest1 with
            | 'n' :: r => numBoundary kind true ('0' :: p :: (ds ++ ['n'])) r
            | _ => numBoundary kind false ('0' :: p :: ds) rest1
      | none => scanDecimal input
  | _ => scanDecimal input

/-! ## Escape decoder (spec section 4.6; forms and their order from the
string_character_escape regex of part_001, whose alternation is ordered:
x-byte, u-code-point, the two octal shapes, then any single character) -/

/-- Modelled from the spec: the Escape Decoder of section 4.6, with the
backslash already consumed.  Each shape is tried in the order of the
part_001 regex alternation; a shape that fails to complete falls through
to the any-single-character passthrough, and an empty input is a
DanglingEscape. -/
def scanEscape (input : Input) : Except LexErrorKind (Esc × Input) :=
  match input with
  | [] => .error .DanglingEscape
  | c :: rest =>
    if c = 'x' then
      match rest with
      | c1 :: c2 :: rest2 =>
          if isHexDigit c1 && isHexDigit c2 then
            .ok (.byteVal (16 * hexDigitVal c1 + hexDigitVal c2), rest2)
          else .ok (.lit 'x', rest)
      | _ => .ok (.lit 'x', rest)
    else if c = 'u' then
      match rest with
      | '{' :: rest2 =>
          match rest2.takeWhile isHexDigit, rest2.dropWhile isHexDigit with
          | _ :: _, '}' :: rest3 =>
              .ok (.codePoint (hexVal (rest2.takeWhile isHexDigit)), rest3)
          | _, _ => .ok (.lit 'u', rest)
      | _ =>
          match rest with
          | c1 :: c2 :: c3 :: c4 :: rest2 =>
              if isHexDigit c1 && isHexDigit c2 && isHexDigit c3 && isHexDigit c4 then
                .ok (.codePoint (hexVal [c1, c2, c3, c4]), rest2)
              else .ok (.lit 'u', rest)
          | _ => .ok (.lit 'u', rest)
    else if ('0' ≤ c) && (c ≤ '2') then
      match rest with
      | d :: e :: rest2 =>
          if isOctalDigit d && isOctalDigit e then
            .ok (.octalByte (octVal [c, d, e]), rest2)
          else if isOctalDigit d then .ok (.octalByte (octVal [c, d]), e :: rest2)
          else .ok (.octalByte (octVal [c]), rest)
      | [d] =>
          if isOctalDigit d then .ok (.octalByte (octVal [c, d]), [])
          else .ok (.octalByte (octVal [c]), rest)
      | [] => .ok (.octalByte (octVal [c]), [])
    else if c = '3' then
      match rest with
      | d :: rest2 =>
          if isOctalDigit d then
            match rest2 with
            | e :: rest3 =>
                if isOctalDigit e then .ok (.octalByte (octVal [c, d, e]), rest3)
                else .ok (.octalByte (octVal [c, d]), rest2)
            | [] => .ok (.octalByte (octVal [c, d]), [])
          else .ok (.lit '3', rest)
      | [] => .ok (.lit '3', rest)
    else if ('4' ≤ c) && (c ≤ '7') then
      match rest with
      | d :: rest2 =>
          if isOctalDigit d then .ok (.octalByte (octVal [c, d]), rest2)
          else .ok (.octalByte (octVal [c]), rest)
      | [] => .ok (.octalByte (octVal [c]), [])
    else .ok (.lit c, rest)

/-- The resolved character an escape appends to a literal-text segment
(spec section 4.4). -/
def escChar : Esc → Char
  | .byteVal n => Char.ofNat n
  | .codePoint n => Char.ofNat n
  | .octalByte n => Char.ofNat n
  | .lit c => c

/-! ## Character literal scanner (spec section 4.5; shape from the
character regex of part_001) -/

/-- Modelled from the spec: the Character Literal Scanner of section 4.5,
with the opening quote already consumed.  Exactly one logical character
(raw or escape) must be followed by the closing quote; zero characters,
more than one, or a missing close is an InvalidCharacterLiteral. -/
def scanCharLit (input : Input) : Token × Input :=
  match input with
  | [] => (.lexError .InvalidCharacterLiteral, [])
  | '\'' :: rest => (.lexError .InvalidCharacterLiteral, rest)
  | '\\' :: rest =>
      match scanEscape rest with
      | .error k => (.lexError k, [])
      | .ok (e, rest2) =>
          match rest2 with
          | '\'' :: rest3 => (.character e, rest3)
          | _ => (.lexError .InvalidCharacterLiteral, rest2)
  | c :: rest =>
      match rest with
      | '\'' :: rest2 => (.character (.lit c), rest2)
      | _ => (.lexError .InvalidCharacterLiteral, rest)

/-! ## Comment scanner (spec section 4.7; the block_comment rule of
part_001 begins at the slash-star and ends at the FIRST star-slash) -/

/-- Modelled from the spec: the block comment body scanner of section
4.7, with the opening slash-star already consumed.  It stops at the first
star-slash, returning the body and the input after the close; none means
end-of-input was reached first (UnterminatedComment). -/
def scanBlockComment : Input → Option (List Char × Input)
  | [] => none
  | '*' :: '/' :: rest => some ([], rest)
  | c :: rest =>
      match scanBlockComment rest with
      | some (body, r) => some (c :: body, r)
      | none => none

/-- Whether a star-slash close marker occurs anywhere in the list. -/
def hasStarSlash : List Char → Bool
  | '*' :: '/' :: _ => true
  | _ :: rest => hasStarSlash rest
  | [] => false

def lineCommentText (r : Input) : List Char := r.takeWhile (fun c => !(c == '\n'))

def lineCommentRest (r : Input) : Input := r.dropWhile (fun c => !(c == '\n'))

/-! ## Tokenizer orchestrator (spec sections 4.4 and 4.8) -/

/-- Result of one dispatched scan step: a finished token, or entry into
the string scanner, which needs the recursive tokenizer. -/
inductive Dispatched where
  | tok (t : Token) (rest : Input)
  | enterString (rest : Input)

/-- Modelled from the spec: the dispatch table of section 4.8, applied to
a significant character c followed by rest.  Double-quote enters the
string scanner; quote, digit, at-sign and word starts go to their
sub-scanners; a doubled hash is a doc comment and doubled slash a line
comment, slash-star a block comment; brackets, terminators and maximal
operator runs follow; any other character is an UnexpectedCharacter. -/
def dispatch (c : Char) (rest : Input) : Dispatched :=
  if c = '"' then .enterString rest
  else if c = '\'' then
    let s := scanCharLit rest
    .tok s.1 s.2
  else if c.isDigit then
    let s := scanNumber (c :: rest)
    .tok s.1 s.2
  else if c = '@' || isWordStart c then
    let s := scanWord (c :: rest)
    .tok s.1 s.2
  else if c = '#' then
    match rest with
    | '#' :: r2 => .tok (.comment true (lineCommentText r2)) (lineCommentRest r2)
    | _ => .tok (.operator ((c :: rest).takeWhile isOpChar)) ((c :: rest).dropWhile isOpChar)
  else if c = '/' then
    match rest with
    | '/' :: r2 => .tok (.comment false (lineCommentText r2)) (lineCommentRest r2)
    | '*' :: r2 =>
        match scanBlockComment r2 with
        | some (body, r3) => .tok (.comment false body) r3
        | none => .tok (.lexError .UnterminatedComment) []
    | _ => .tok (.operator ((c :: rest).takeWhile isOpChar)) ((c :: rest).dropWhile isOpChar)
  else if isBracketChar c then .tok (.bracket c) rest
  else if c = ';' || c = ',' then .tok (.terminator c) rest
  else if isOpChar c then
    .tok (.operator ((c :: rest).takeWhile isOpChar)) ((c :: rest).dropWhile isOpChar)
  else .tok (.lexError .UnexpectedCharacter) rest

/-- Modelled from the spec: the fixed interpolation depth bound of
section 4.4, at its recommended value. -/
def MAX_INTERPOLATION_DEPTH : Nat := 32

/-- Close the current literal-text run into the segment list, dropping an
empty run. -/
def pushLiteral (cur : List Char) (acc : List Segment) : List Segment :=
  if cur.isEmpty then acc else acc ++ [.literal cur]

/-- Segments of a finished string: a string with no interpolation has
exactly one literal-text segment (spec section 3). -/
def closeSegments (cur : List Char) (acc : List Segment) : List Segment :=
  if acc.isEmpty && cur.isEmpty then [.literal []] else pushLiteral cur acc

/-- The pending work items of the tokenizer: scan one token, scan a
string body, scan the token sequence of one interpolation region with a
brace depth counter, or produce the whole token stream. -/
inductive Job where
  | one (depth : Nat) (input : Input)
  | str (depth : Nat) (input : Input) (cur : List Char) (acc : List Segment)
  | interp (depth : Nat) (input : Input) (braces : Nat) (acc : List Token)
  | top (depth : Nat) (input : Input) (acc : List Token)

/-- The raw character input a job still has to consume. -/
def Job.inputOf : Job → Input
  | .one _ input => input
  | .str _ input _ _ => input
  | .interp _ input _ _ => input
  | .top _ input _ => input

/-- Tokenizer results: one token and the rest, an interpolation region's
token list and the rest, a whole stream, a fatal error that aborts the
scan, or fuel exhaustion. -/
inductive Res where
  | tok (t : Token) (rest : Input)
  | toks (ts : List Token) (rest : Input)
  | stream (ts : List Token)
  | fatal (k : LexErrorKind)
  | outOfFuel
  deriving Repr

/-- Modelled from the spec: the Tokenizer orchestrator of sections 4.4
and 4.8 (the scanner implementation is absent from the repository).  The
fuel argument bounds the number of recursive steps; every recursive call
spends one unit, so any sufficiently large fuel gives the same result.
A string body re-enters the tokenizer at the interpolation marker,
guarded by the depth bound, and the interpolation loop counts bracket
tokens so an inner brace pair does not close the region; the closing
brace at depth zero is consumed but not emitted. -/
def run : Nat → Job → Res
  | 0, _ => .outOfFuel
  | fuel + 1, .one depth input =>
      match input.dropWhile isWsChar with
      | [] => .tok .endOfInput []
      | c :: rest =>
          match dispatch c rest with
          | .tok t r => .tok t r
          | .enterString r => run fuel (.str depth r [] [])
  | fuel + 1, .str depth input cur acc =>
      match input with
      | [] => .tok (.lexError .UnterminatedString) []
      | '"' :: rest => .tok (.string (closeSegments cur acc)) rest
      | '\\' :: rest =>
          match scanEscape rest with
          | .error k => .tok (.lexError k) []
          | .ok (e, rest2) => run fuel (.str depth rest2 (cur ++ [escChar e]) acc)
      | '#' :: '{' :: rest =>
          if MAX_INTERPOLATION_DEPTH < depth + 1 then .fatal .InterpolationTooDeep
          else
            match run fuel (.interp (depth + 1) rest 0 []) with
            | .toks ts rest2 =>
                run fuel (.str depth rest2 [] (pushLiteral cur acc ++ [.interpolation ts]))
            | .fatal k => .fatal k
            | _ => .outOfFuel
      | c :: rest => run fuel (.str depth rest (cur ++ [c]) acc)
  | fuel + 1, .interp depth input braces acc =>
      match run fuel (.one depth input) with
      | .tok (.bracket c) rest =>
          if c = '}' then
            if braces = 0 then .toks acc rest
            else run fuel (.interp depth rest (braces - 1) (acc ++ [.bracket c]))
          else if c = '{' then
            run fuel (.interp depth rest (braces + 1) (acc ++ [.bracket c]))
          else run fuel (.interp depth rest braces (acc ++ [.bracket c]))
      | .tok .endOfInput rest => .toks acc rest
      | .tok t rest => run fuel (.interp depth rest braces (acc ++ [t]))
      | .fatal k => .fatal k
      | _ => .outOfFuel
  | fuel + 1, .top depth input acc =>
      match run fuel (.one depth input) with
      | .tok .endOfInput _ => .stream (acc ++ [.endOfInput])
      | .tok t rest => run fuel (.top depth rest (acc ++ [t]))
      | .fatal k => .fatal k
      | _ => .outOfFuel

/-- Modelled from the spec: scan a whole source unit (section 6), from
the Scanning state at depth zero. -/
def tokenize (fuel : Nat) (input : Input) : Res :=
  run fuel (.top 0 input [])

/-- Bracket contribution of one token to the interpolation depth count
(spec section 4.4: nested braces are depth-counted over the embedded
token sequence). -/
def braceDelta : Token → Int
  | .bracket c => if c = '{' then 1 else if c = '}' then -1 else 0
  | _ => 0

/-- Total bracket depth change over a token list. -/
def braceDeltaList (ts : List Token) : Int :=
  (ts.map braceDelta).sum

/-- The unconsumed rest carried by a one-token or interpolation result. -/
def Res.restOf : Res → Option Input
  | .tok _ rest => some rest
  | .toks _ rest => some rest
  | _ => none

/-- Whether a result is a finished token stream. -/
def Res.isStream : Res → Bool
  | .stream _ => true
  | _ => false

/-- A nested-interpolation test input: n levels of string-in-interpolation
around an innermost identifier x. -/
def deepNest : Nat → List Char
  | 0 => ['x']
  | n + 1 => '"' :: '#' :: '{' :: (deepNest n ++ ['}', '"'])

/-! ## The core fs module (src/unnamed/part_004) -/

/-- A Pebble file system path (the Path type used by the fs module). -/
structure Path where
  raw : String
  deriving DecidableEq, Repr

/-- An in-memory file buffer (the FileBuffer type of the fs module). -/
structure FileBuffer where
  bytes : List Nat
  deriving DecidableEq, Repr

/-- A captured stack trace, as produced by getStackTrace. -/
structure StackTrace where
  frames : List String
  deriving DecidableEq, Repr

/-- The FileSystemError class of part_004: a message plus stack trace. -/
structure FileSystemError where
  message : String
  stackTrace : StackTrace
  deriving DecidableEq, Repr

/-- The Pebble Result enum: a value or an error. -/
inductive PResult (α ε : Type) where
  | ok (v : α)
  | err (e : ε)
  deriving DecidableEq, Repr

/-- Evaluating a Pebble function body: it either crashes with an Error
message (the crash statement) or returns a value. -/
inductive Outcome (α : Type) where
  | crash (message : String)
  | ret (v : α)
  deriving DecidableEq, Repr

/-- Whether an outcome is a crash rather than a returned value. -/
def Outcome.isCrash {α : Type} : Outcome α → Bool
  | .crash _ => true
  | .ret _ => false

namespace fs

/-- Body of fs.readFile in part_004: crash Error("This function has not
been implemented."). -/
def readFile (p : Path) : Outcome (PResult FileBuffer FileSystemError) :=
  .crash "This function has not been implemented."

/-- Body of fs.writeFile in part_004. -/
def writeFile (p : Path) (data : String) : Outcome (PResult Unit FileSystemError) :=
  .crash "This function has not been implemented."

/-- Body of fs.readToString in part_004. -/
def readToString (p : Path) : Outcome (PResult String FileSystemError) :=
  .crash "This function has not been implemented."

/-- Body of fs.deleteFile in part_004. -/
def deleteFile (p : Path) : Outcome (PResult Unit FileSystemError) :=
  .crash "This function has not been implemented."

/-- Body of fs.copyFile in part_004: crash Error("The function has not
been implemented."). -/
def copyFile (source : Path) (dest : Path) : Outcome (PResult Unit FileSystemError) :=
  .crash "The function has not been implemented."

/-- Body of fs.exists in part_004, declared to return Boolean. -/
def «exists» (path : Path) : Outcome Bool :=
  .crash "The function has not been implemented."

end fs

/-! ## The editor hover provider (src/unnamed/part_000) -/

/-- A position in a text document, as handed to the hover provider. -/
structure Position where
  line : Nat
  character : Nat
  deriving DecidableEq, Repr

/-- The document a hover is requested for. -/
structure TextDocument where
  uri : String
  text : String
  deriving DecidableEq, Repr

/-- The cancellation token passed by the editor host. -/
structure CancellationToken where
  isCancellationRequested : Bool
  deriving DecidableEq, Repr

/-- A hover result: its rendered contents. -/
structure Hover where
  contents : String
  deriving DecidableEq, Repr

/-- A settled promise, as produced by Promise.resolve. -/
inductive Promise (α : Type) where
  | resolved (v : α)
  deriving DecidableEq, Repr

/-- The provideHover callback of part_000: it ignores all three arguments
and returns Promise.resolve(new Hover("Hello")). -/
def provideHover (document : TextDocument) (position : Position)
    (token : CancellationToken) : Promise Hover :=
  .resolved { contents := "Hello" }

/-! # Helper lemmas on maximal runs -/

theorem takeWhile_eq_self_of_all {α : Type} (p : α → Bool) :
    ∀ l : List α, (∀ a ∈ l, p a = true) → l.takeWhile p = l := by
  intro l
  induction l with
  | nil => intro _; rfl
  | cons x xs ih =>
      intro hall
      have hx := hall x (List.mem_cons_self x xs)
      simp only [List.takeWhile_cons, hx, if_true]
      rw [ih (fun a ha => hall a (List.mem_cons_of_mem x ha))]

theorem dropWhile_eq_nil_of_all {α : Type} (p : α → Bool) :
    ∀ l : List α, (∀ a ∈ l, p a = true) → l.dropWhile p = [] := by
  intro l
  induction l with
  | nil => intro _; rfl
  | cons x xs ih =>
      intro hall
      have hx := hall x (List.mem_cons_self x xs)
      simp only [List.dropWhile_cons, hx, if_true]
      exact ih (fun a ha => hall a (List.mem_cons_of_mem x ha))

theorem takeWhile_append_cons {α : Type} (p : α → Bool) :
    ∀ (l : List α) (b : α) (r : List α), (∀ a ∈ l, p a = true) → p b = false →
      (l ++ b :: r).takeWhile p = l := by
  intro l
  induction l with
  | nil => intro b r _ hb; simp [List.takeWhile_cons, hb]
  | cons x xs ih =>
      intro b r hall hb
      have hx := hall x (List.mem_cons_self x xs)
      simp only [List.cons_append, List.takeWhile_cons, hx, if_true]
      rw [ih b r (fun a ha => hall a (List.mem_cons_of_mem x ha)) hb]

theorem dropWhile_append_cons {α : Type} (p : α → Bool) :
    ∀ (l : List α) (b : α) (r : List α), (∀ a ∈ l, p a = true) → p b = false →
      (l ++ b :: r).dropWhile p = b :: r := by
  intro l
  induction l with
  | nil => intro b r _ hb; simp [List.dropWhile_cons, hb]
  | cons x xs ih =>
      intro b r hall hb
      have hx := hall x (List.mem_cons_self x xs)
      simp only [List.cons_append, List.dropWhile_cons, hx, if_true]
      exact ih b r (fun a ha => hall a (List.mem_cons_of_mem x ha)) hb

/-! # Claim C10 -/

/-- Claim C10: the editor hover provider is a constant function: for every
document, position and cancellation token it resolves to a Hover whose
contents are the string Hello, so any two invocations on any two inputs
produce equal hover output. -/
theorem claim_C10 :
    (∀ d p t, provideHover d p t = .resolved { contents := "Hello" }) ∧
    (∀ d p t d' p' t', provideHover d p t = provideHover d' p' t') :=
  ⟨fun _ _ _ => rfl, fun _ _ _ _ _ _ => rfl⟩

/-! # Claim C9 -/

/-- Claim C9: every public function of the core fs module — readFile,
writeFile, readToString, deleteFile, copyFile and exists — unconditionally
crashes with a has-not-been-implemented Error for every input, and never
returns a value of its declared Result or Boolean return type. -/
theorem claim_C9 :
    (∀ p, fs.readFile p = .crash "This function has not been implemented.") ∧
    (∀ p data, fs.writeFile p data = .crash "This function has not been implemented.") ∧
    (∀ p, fs.readToString p = .crash "This function has not been implemented.") ∧
    (∀ p, fs.deleteFile p = .crash "This function has not been implemented.") ∧
    (∀ s d, fs.copyFile s d = .crash "The function has not been implemented.") ∧
    (∀ p, fs.«exists» p = .crash "The function has not been implemented.") ∧
    (∀ p, (fs.readFile p).isCrash = true) ∧
    (∀ p data, (fs.writeFile p data).isCrash = true) ∧
    (∀ p, (fs.readToString p).isCrash = true) ∧
    (∀ p, (fs.deleteFile p).isCrash = true) ∧
    (∀ s d, (fs.copyFile s d).isCrash = true) ∧
    (∀ p, (fs.«exists» p).isCrash = true) ∧
    "has not been implemented".toList <:+: "This function has not been implemented.".toList ∧
    "has not been implemented".toList <:+: "The function has not been implemented.".toList :=
  ⟨fun _ => rfl, fun _ _ => rfl, fun _ => rfl, fun _ => rfl, fun _ _ => rfl, fun _ => rfl,
   fun _ => rfl, fun _ _ => rfl, fun _ => rfl, fun _ => rfl, fun _ _ => rfl, fun _ => rfl,
   by decide, by decide⟩

/-! # Claim C2 -/

/-- Claim C2 counterexample: the bare word function — which the claim uses
as its example of a keyword-set word — classifies as an Identifier, not a
Keyword: the keyword regex of part_001 does not list function (only the
injunction regex does). -/
theorem claim_C2_counterexample :
    classifyWord false "function" = Token.identifier "function" ∧
    classifyWord false "function" ≠ Token.keyword "function" false ∧
    classifyWord false "function" ≠ Token.keyword "function" true := by
  have h0 : classifyWord false "function" = Token.identifier "function" := rfl
  refine ⟨h0, ?_, ?_⟩ <;> rw [h0] <;> exact fun h => Token.noConfusion h

/-- Claim C2 (amended): an at-prefixed word is an Injunction token exactly
when the bare word is in the injunction set {use, public, prepend, type,
let, function, const, enum, class, record, interface, module, implement,
tests}; an at-prefixed word outside that set is a LexError of kind
UnknownInjunction; a bare word in the keyword set {for, fn, in, while,
break, continue, crash, try, recover, println, if, else, from, as, return,
match, case, loop} is a Keyword token, while bare function — an injunction
word, not a keyword — is an Identifier; matching is exact and
case-sensitive. -/
theorem claim_C2_amended :
    (∀ w : String, classifyWord true w = Token.injunction w ↔
      w ∈ ["use", "public", "prepend", "type", "let", "function", "const",
           "enum", "class", "record", "interface", "module", "implement", "tests"]) ∧
    (∀ w : String,
      w ∉ ["use", "public", "prepend", "type", "let", "function", "const",
           "enum", "class", "record", "interface", "module", "implement", "tests"] →
      classifyWord true w = Token.lexError .UnknownInjunction) ∧
    (∀ w : String,
      w ∈ ["for", "fn", "in", "while", "break", "continue", "crash", "try",
           "recover", "println", "if", "else", "from", "as", "return", "match",
           "case", "loop"] →
      classifyWord false w = Token.keyword w false) ∧
    classifyWord false "function" = Token.identifier "function" ∧
    classifyWord false "For" = Token.identifier "For" ∧
    classifyWord true "Use" = Token.lexError .UnknownInjunction := by
  refine ⟨?_, ?_, ?_, rfl, rfl, rfl⟩
  · intro w
    constructor
    · intro h
      by_contra hmem
      have hm : w ∉ injunctionSet := hmem
      simp [classifyWord, hm] at h
    · intro hmem
      have hm : w ∈ injunctionSet := hmem
      simp [classifyWord, hm]
  · intro w hw
    have hm : w ∉ injunctionSet := hw
    simp [classifyWord, hm]
  · intro w hw
    have hm : w ∈ keywordSet := hw
    simp [classifyWord, hm]

/-- Claim C2 witness: the amended classification at concrete words. -/
theorem claim_C2_witness :
    classifyWord true "function" = Token.injunction "function" ∧
    classifyWord true "foo" = Token.lexError .UnknownInjunction ∧
    classifyWord false "for" = Token.keyword "for" false :=
  ⟨(claim_C2_amended.1 "function").mpr (by decide),
   claim_C2_amended.2.1 "foo" (by decide),
   claim_C2_amended.2.2.1 "for" (by decide)⟩

/-! # Claim C3 -/

theorem isEmpty_false_of_ne_nil {α : Type} {l : List α} (h : l ≠ []) :
    l.isEmpty = false := by
  cases l with
  | nil => exact absurd rfl h
  | cons a t => rfl

theorem baseRadix_cases {p : Char} {kind : NumberKind} {isD : Char → Bool}
    (h : baseRadix p = some (kind, isD)) :
    (kind = .Hexadecimal ∧ isD = isHexDigit) ∨
    (kind = .Octal ∧ isD = isOctalDigit) ∨
    (kind = .Binary ∧ isD = isBinaryDigit) := by
  unfold baseRadix at h
  split at h
  · simp only [Option.some.injEq, Prod.mk.injEq] at h
    exact Or.inl ⟨h.1.symm, h.2.symm⟩
  · split at h
    · simp only [Option.some.injEq, Prod.mk.injEq] at h
      exact Or.inr (Or.inl ⟨h.1.symm, h.2.symm⟩)
    · split at h
      · simp only [Option.some.injEq, Prod.mk.injEq] at h
        exact Or.inr (Or.inr ⟨h.1.symm, h.2.symm⟩)
      · exact Option.noConfusion h

theorem baseRadix_not_n {p : Char} {kind : NumberKind} {isD : Char → Bool}
    (h : baseRadix p = some (kind, isD)) : isD 'n' = false := by
  rcases baseRadix_cases h with ⟨_, h2⟩ | ⟨_, h2⟩ | ⟨_, h2⟩ <;> rw [h2] <;> decide

/-- Helper: a based literal whose digit run is stopped by a clean
character. -/
theorem scanNumber_based_stop {p : Char} {kind : NumberKind} {isD : Char → Bool}
    (ds : List Char) (b : Char) (r : List Char)
    (h : baseRadix p = some (kind, isD)) (hne : ds ≠ [])
    (hall : ∀ c ∈ ds, isD c = true) (hb : isD b = false)
    (hbd : b.isDigit = false) (hbw : isWordStart b = false) :
    scanNumber ('0' :: p :: (ds ++ b :: r)) =
      (.number kind false ('0' :: p :: ds), b :: r) := by
  have hbn : b ≠ 'n' := by
    intro hEq
    rw [hEq] at hbw
    exact absurd hbw (by decide)
  rw [scanNumber]
  rw [h]
  simp only [takeWhile_append_cons isD ds b r hall hb,
             dropWhile_append_cons isD ds b r hall hb,
             isEmpty_false_of_ne_nil hne, Bool.false_eq_true, if_false]
  split
  · rename_i heq
    exact absurd (List.head_eq_of_cons_eq heq) hbn
  · simp [numBoundary, hbd, hbw]

/-- Helper: a based literal running to the end of input. -/
theorem scanNumber_based_end {p : Char} {kind : NumberKind} {isD : Char → Bool}
    (ds : List Char)
    (h : baseRadix p = some (kind, isD)) (hne : ds ≠ [])
    (hall : ∀ c ∈ ds, isD c = true) :
    scanNumber ('0' :: p :: ds) = (.number kind false ('0' :: p :: ds), []) := by
  rw [scanNumber]
  rw [h]
  simp only [takeWhile_eq_self_of_all isD ds hall,
             dropWhile_eq_nil_of_all isD ds hall,
             isEmpty_false_of_ne_nil hne, Bool.false_eq_true, if_false]
  simp [numBoundary]

/-- Helper: a based literal with the big suffix. -/
theorem scanNumber_based_big {p : Char} {kind : NumberKind} {isD : Char → Bool}
    (ds : List Char)
    (h : baseRadix p = some (kind, isD)) (hne : ds ≠ [])
    (hall : ∀ c ∈ ds, isD c = true) :
    scanNumber ('0' :: p :: (ds ++ ['n'])) =
      (.number kind true ('0' :: p :: (ds ++ ['n'])), []) := by
  have hn : isD 'n' = false := baseRadix_not_n h
  rw [scanNumber]
  rw [h]
  simp only [takeWhile_append_cons isD ds 'n' [] hall hn,
             dropWhile_append_cons isD ds 'n' [] hall hn,
             isEmpty_false_of_ne_nil hne, Bool.false_eq_true, if_false]
  simp [numBoundary]

/-- Helper: a based literal with zero digits after its prefix. -/
theorem scanNumber_based_zero {p : Char} {kind : NumberKind} {isD : Char → Bool}
    (b : Char) (r : List Char)
    (h : baseRadix p = some (kind, isD)) (hb : isD b = false) :
    scanNumber ('0' :: p :: b :: r) = (.lexError .MalformedNumericLiteral, b :: r) := by
  rw [scanNumber]
  rw [h]
  simp [List.takeWhile_cons, List.dropWhile_cons, hb]

/-- Claim C3: a numeric literal beginning 0x/0X, 0o/0O or 0b/0B consumes
the prefix plus the maximal run of digits valid for that base (hex
0-9A-Fa-f, octal 0-7, binary 0-1), optionally followed by the big-literal
suffix marker; a prefix followed by zero valid digits is a LexError
MalformedNumericLiteral; and 0x1A produces exactly one Number token of
kind Hexadecimal with lexeme 0x1A. -/
theorem claim_C3 :
    (baseRadix 'x' = some (.Hexadecimal, isHexDigit) ∧
     baseRadix 'X' = some (.Hexadecimal, isHexDigit) ∧
     baseRadix 'o' = some (.Octal, isOctalDigit) ∧
     baseRadix 'O' = some (.Octal, isOctalDigit) ∧
     baseRadix 'b' = some (.Binary, isBinaryDigit) ∧
     baseRadix 'B' = some (.Binary, isBinaryDigit)) ∧
    (∀ (p : Char) (kind : NumberKind) (isD : Char → Bool) (ds : List Char),
      baseRadix p = some (kind, isD) → ds ≠ [] → (∀ c ∈ ds, isD c = true) →
      scanNumber ('0' :: p :: ds) = (.number kind false ('0' :: p :: ds), [])) ∧
    (∀ (p : Char) (kind : NumberKind) (isD : Char → Bool) (ds : List Char)
       (b : Char) (r : List Char),
      baseRadix p = some (kind, isD) → ds ≠ [] → (∀ c ∈ ds, isD c = true) →
      isD b = false → b.isDigit = false → isWordStart b = false →
      scanNumber ('0' :: p :: (ds ++ b :: r)) =
        (.number kind false ('0' :: p :: ds), b :: r)) ∧
    (∀ (p : Char) (kind : NumberKind) (isD : Char → Bool) (ds : List Char),
      baseRadix p = some (kind, isD) → ds ≠ [] → (∀ c ∈ ds, isD c = true) →
      scanNumber ('0' :: p :: (ds ++ ['n'])) =
        (.number kind true ('0' :: p :: (ds ++ ['n'])), [])) ∧
    (∀ (p : Char) (kind : NumberKind) (isD : Char → Bool),
      baseRadix p = some (kind, isD) →
      scanNumber ['0', p] = (.lexError .MalformedNumericLiteral, [])) ∧
    (∀ (p : Char) (kind : NumberKind) (isD : Char → Bool) (b : Char) (r : List Char),
      baseRadix p = some (kind, isD) → isD b = false →
      scanNumber ('0' :: p :: b :: r) = (.lexError .MalformedNumericLiteral, b :: r)) ∧
    scanNumber "0x1A".toList = (.number .Hexadecimal false "0x1A".toList, []) := by
  refine ⟨⟨rfl, rfl, rfl, rfl, rfl, rfl⟩, ?_, ?_, ?_, ?_, ?_, rfl⟩
  · intro p kind isD ds h hne hall
    exact scanNumber_based_end ds h hne hall
  · intro p kind isD ds b r h hne hall hb hbd hbw
    exact scanNumber_based_stop ds b r h hne hall hb hbd hbw
  · intro p kind isD ds h hne hall
    exact scanNumber_based_big ds h hne hall
  · intro p kind isD h
    rw [scanNumber]
    rw [h]
    simp
  · intro p kind isD b r h hb
    exact scanNumber_based_zero b r h hb

/-- Claim C3 witness: the general clauses applied to concrete literals in
each base. -/
theorem claim_C3_witness :
    scanNumber "0x1A".toList = (.number .Hexadecimal false "0x1A".toList, []) ∧
    scanNumber "0o17 ".toList = (.number .Octal false "0o17".toList, [' ']) ∧
    scanNumber "0b10n".toList = (.number .Binary true "0b10n".toList, []) ∧
    scanNumber "0x".toList = (.lexError .MalformedNumericLiteral, []) ∧
    scanNumber "0b2".toList = (.lexError .MalformedNumericLiteral, ['2']) :=
  ⟨claim_C3.2.1 'x' .Hexadecimal isHexDigit ['1', 'A'] rfl (by decide) (by decide),
   claim_C3.2.2.1 'o' .Octal isOctalDigit ['1', '7'] ' ' [] rfl (by decide) (by decide)
     (by decide) (by decide) (by decide),
   claim_C3.2.2.2.1 'b' .Binary isBinaryDigit ['1', '0'] rfl (by decide) (by decide),
   claim_C3.2.2.2.2.1 'x' .Hexadecimal isHexDigit rfl,
   claim_C3.2.2.2.2.2.1 'b' .Binary isBinaryDigit '2' [] rfl (by decide)⟩

/-! # Claim C4 -/

theorem baseRadix_digit_none {q : Char} (h : q.isDigit = true) :
    baseRadix q = none := by
  unfold baseRadix
  split
  · rename_i hc
    simp only [Bool.or_eq_true, decide_eq_true_eq] at hc
    rcases hc with hc | hc <;> rw [hc] at h <;> exact absurd h (by decide)
  · split
    · rename_i hc
      simp only [Bool.or_eq_true, decide_eq_true_eq] at hc
      rcases hc with hc | hc <;> rw [hc] at h <;> exact absurd h (by decide)
    · split
      · rename_i hc
        simp only [Bool.or_eq_true, decide_eq_true_eq] at hc
        rcases hc with hc | hc <;> rw [hc] at h <;> exact absurd h (by decide)
      · rfl

/-- On an input whose second character has no base prefix meaning, the
number scanner is the decimal path. -/
theorem scanNumber_to_decimal (d q : Char) (rest : Input)
    (hq : baseRadix q = none) :
    scanNumber (d :: q :: rest) = scanDecimal (d :: q :: rest) := by
  rw [scanNumber.eq_def]
  split
  · rename_i p rest' heq
    injection heq with h1 h2
    injection h2 with h2a h2b
    rw [← h2a, hq]
  · rfl

theorem numBoundary_number {kind : NumberKind} {big : Bool} {lexeme : List Char}
    {rest : Input} {kind' : NumberKind} {big' : Bool} {lexeme' : List Char}
    {rest' : Input}
    (h : numBoundary kind big lexeme rest = (.number kind' big' lexeme', rest')) :
    kind' = kind ∧ big' = big := by
  unfold numBoundary at h
  split at h
  · split at h
    · simp at h
    · split at h
      · simp at h
      · simp only [Prod.mk.injEq, Token.number.injEq] at h
        exact ⟨h.1.1.symm, h.1.2.1.symm⟩
  · simp only [Prod.mk.injEq, Token.number.injEq] at h
    exact ⟨h.1.1.symm, h.1.2.1.symm⟩

/-- The decimal path never puts the big marker on a fraction or exponent
literal. -/
theorem scanDecimal_no_big_fraction {input : Input} {kind : NumberKind}
    {big : Bool} {lexeme : List Char} {rest : Input}
    (h : scanDecimal input = (.number kind big lexeme, rest))
    (hkind : kind = .DecimalFraction ∨ kind = .Exponent) : big = false := by
  unfold scanDecimal at h
  simp only [] at h
  split at h
  · split at h
    · split at h
      · split at h
        · simp at h
        · exact (numBoundary_number h).2
      · simp only [Prod.mk.injEq, Token.number.injEq] at h
        rcases hkind with hk | hk <;> rw [hk] at h <;> exact absurd h.1.1.symm (by simp)
    · simp only [Prod.mk.injEq, Token.number.injEq] at h
      rcases hkind with hk | hk <;> rw [hk] at h <;> exact absurd h.1.1.symm (by simp)
  · split at h
    · split at h
      · split at h
        · simp at h
        · exact (numBoundary_number h).2
      · have := (numBoundary_number h).1
        rcases hkind with hk | hk <;> rw [hk] at this <;> exact absurd this (by simp)
    · have := (numBoundary_number h).1
      rcases hkind with hk | hk <;> rw [hk] at this <;> exact absurd this (by simp)
  · have := (numBoundary_number h).1
    rcases hkind with hk | hk <;> rw [hk] at this <;> exact absurd this (by simp)
  · have := (numBoundary_number h).1
    rcases hkind with hk | hk <;> rw [hk] at this <;> exact absurd this (by simp)

/-- Helper: a consumed fractional part stopped by a clean character. -/
theorem scanDecimal_fraction_stop (ds : List Char) (f1 : Char) (fr : List Char)
    (b : Char) (r : List Char)
    (hall : ∀ c ∈ ds, c.isDigit = true) (hf1 : f1.isDigit = true)
    (hfr : ∀ c ∈ fr, c.isDigit = true)
    (hbd : b.isDigit = false) (hbw : isWordStart b = false) :
    scanDecimal (ds ++ '.' :: (f1 :: fr ++ b :: r)) =
      (.number .DecimalFraction false (ds ++ '.' :: f1 :: fr), b :: r) := by
  have hbn : b ≠ 'n' := by
    intro hEq
    rw [hEq] at hbw
    exact absurd hbw (by decide)
  have hdot : ('.' : Char).isDigit = false := by decide
  have hallf : ∀ c ∈ f1 :: fr, c.isDigit = true := by
    intro c hc
    rcases List.mem_cons.mp hc with hc | hc
    · rw [hc]; exact hf1
    · exact hfr c hc
  unfold scanDecimal
  simp only [takeWhile_append_cons Char.isDigit ds '.' _ hall hdot,
             dropWhile_append_cons Char.isDigit ds '.' _ hall hdot]
  simp only [List.cons_append, hf1, if_true]
  rw [show f1 :: (fr ++ b :: r) = (f1 :: fr) ++ b :: r from rfl]
  simp only [takeWhile_append_cons Char.isDigit (f1 :: fr) b r hallf hbd,
             dropWhile_append_cons Char.isDigit (f1 :: fr) b r hallf hbd]
  split
  · rename_i heq
    exact absurd (List.head_eq_of_cons_eq heq) hbn
  · simp [numBoundary, hbd, hbw]

/-- Helper: a consumed fractional part running to end of input. -/
theorem scanDecimal_fraction_end (ds : List Char) (f1 : Char) (fr : List Char)
    (hall : ∀ c ∈ ds, c.isDigit = true) (hf1 : f1.isDigit = true)
    (hfr : ∀ c ∈ fr, c.isDigit = true) :
    scanDecimal (ds ++ '.' :: f1 :: fr) =
      (.number .DecimalFraction false (ds ++ '.' :: f1 :: fr), []) := by
  have hdot : ('.' : Char).isDigit = false := by decide
  have hallf : ∀ c ∈ f1 :: fr, c.isDigit = true := by
    intro c hc
    rcases List.mem_cons.mp hc with hc | hc
    · rw [hc]; exact hf1
    · exact hfr c hc
  unfold scanDecimal
  simp only [takeWhile_append_cons Char.isDigit ds '.' _ hall hdot,
             dropWhile_append_cons Char.isDigit ds '.' _ hall hdot]
  simp only [hf1, if_true]
  simp only [takeWhile_eq_self_of_all Char.isDigit (f1 :: fr) hallf,
             dropWhile_eq_nil_of_all Char.isDigit (f1 :: fr) hallf]
  simp [numBoundary]

/-- Helper: a dot not followed by a digit is left for the next token. -/
theorem scanDecimal_dot_left (ds : List Char) (b : Char) (r : List Char)
    (hall : ∀ c ∈ ds, c.isDigit = true) (hbd : b.isDigit = false) :
    scanDecimal (ds ++ '.' :: b :: r) = (.number .Decimal false ds, '.' :: b :: r) := by
  have hdot : ('.' : Char).isDigit = false := by decide
  unfold scanDecimal
  simp only [takeWhile_append_cons Char.isDigit ds '.' _ hall hdot,
             dropWhile_append_cons Char.isDigit ds '.' _ hall hdot]
  simp [hbd]

/-- Helper: a trailing dot is left for the next token. -/
theorem scanDecimal_dot_end (ds : List Char)
    (hall : ∀ c ∈ ds, c.isDigit = true) :
    scanDecimal (ds ++ ['.']) = (.number .Decimal false ds, ['.']) := by
  have hdot : ('.' : Char).isDigit = false := by decide
  unfold scanDecimal
  simp only [takeWhile_append_cons Char.isDigit ds '.' [] hall hdot,
             dropWhile_append_cons Char.isDigit ds '.' [] hall hdot]

/-- Helper: an exponent run stopped by a clean character. -/
theorem scanDecimal_exponent_stop (ds : List Char) (e1 : Char) (es : List Char)
    (b : Char) (r : List Char)
    (hall : ∀ c ∈ ds, c.isDigit = true) (he1 : e1.isDigit = true)
    (hes : ∀ c ∈ es, c.isDigit = true)
    (hbd : b.isDigit = false) (hbw : isWordStart b = false) :
    scanDecimal (ds ++ 'e' :: (e1 :: es ++ b :: r)) =
      (.number .Exponent false (ds ++ 'e' :: e1 :: es), b :: r) := by
  have hbn : b ≠ 'n' := by
    intro hEq
    rw [hEq] at hbw
    exact absurd hbw (by decide)
  have he : ('e' : Char).isDigit = false := by decide
  have halle : ∀ c ∈ e1 :: es, c.isDigit = true := by
    intro c hc
    rcases List.mem_cons.mp hc with hc | hc
    · rw [hc]; exact he1
    · exact hes c hc
  unfold scanDecimal
  simp only [takeWhile_append_cons Char.isDigit ds 'e' _ hall he,
             dropWhile_append_cons Char.isDigit ds 'e' _ hall he]
  simp only [List.cons_append, he1, if_true]
  rw [show e1 :: (es ++ b :: r) = (e1 :: es) ++ b :: r from rfl]
  simp only [takeWhile_append_cons Char.isDigit (e1 :: es) b r halle hbd,
             dropWhile_append_cons Char.isDigit (e1 :: es) b r halle hbd]
  split
  · rename_i heq
    exact absurd (List.head_eq_of_cons_eq heq) hbn
  · simp [numBoundary, hbd, hbw]

/-- Helper: an exponent run to end of input. -/
theorem scanDecimal_exponent_end (ds : List Char) (e1 : Char) (es : List Char)
    (hall : ∀ c ∈ ds, c.isDigit = true) (he1 : e1.isDigit = true)
    (hes : ∀ c ∈ es, c.isDigit = true) :
    scanDecimal (ds ++ 'e' :: e1 :: es) =
      (.number .Exponent false (ds ++ 'e' :: e1 :: es), []) := by
  have he : ('e' : Char).isDigit = false := by decide
  have halle : ∀ c ∈ e1 :: es, c.isDigit = true := by
    intro c hc
    rcases List.mem_cons.mp hc with hc | hc
    · rw [hc]; exact he1
    · exact hes c hc
  unfold scanDecimal
  simp only [takeWhile_append_cons Char.isDigit ds 'e' _ hall he,
             dropWhile_append_cons Char.isDigit ds 'e' _ hall he]
  simp only [he1, if_true]
  simp only [takeWhile_eq_self_of_all Char.isDigit (e1 :: es) halle,
             dropWhile_eq_nil_of_all Char.isDigit (e1 :: es) halle]
  simp [numBoundary]

/-- Reduce a decimal-path scanNumber call on a digit-led input to
scanDecimal: the second character is a digit from the run or the
boundary, never a base prefix. -/
theorem scanNumber_decimal_input (d : Char) (ds : List Char) (q : Char)
    (rest : Input) (hd : d.isDigit = true)
    (hds : ∀ c ∈ ds, c.isDigit = true) (hq : baseRadix q = none) :
    scanNumber (d :: (ds ++ q :: rest)) = scanDecimal (d :: (ds ++ q :: rest)) := by
  cases ds with
  | nil => exact scanNumber_to_decimal d q rest hq
  | cons d2 ds' =>
      exact scanNumber_to_decimal d d2 (ds' ++ q :: rest)
        (baseRadix_digit_none (hds d2 (List.mem_cons_self d2 ds')))

/-- The whole number scanner never puts the big marker on a fraction or
exponent literal. -/
theorem scanNumber_no_big_fraction {input : Input} {kind : NumberKind}
    {big : Bool} {lexeme : List Char} {rest : Input}
    (h : scanNumber input = (.number kind big lexeme, rest))
    (hkind : kind = .DecimalFraction ∨ kind = .Exponent) : big = false := by
  rw [scanNumber.eq_def] at h
  split at h
  · split at h
    · rename_i pr k isD hbase
      simp only [] at h
      split at h
      · simp at h
      · split at h
        · have hk := (numBoundary_number h).1
          rcases baseRadix_cases hbase with ⟨hK, _⟩ | ⟨hK, _⟩ | ⟨hK, _⟩ <;>
            rw [hK] at hk <;> rcases hkind with hkd | hkd <;> rw [hkd] at hk <;>
            exact absurd hk (by simp)
        · have hk := (numBoundary_number h).1
          rcases baseRadix_cases hbase with ⟨hK, _⟩ | ⟨hK, _⟩ | ⟨hK, _⟩ <;>
            rw [hK] at hk <;> rcases hkind with hkd | hkd <;> rw [hkd] at hk <;>
            exact absurd hk (by simp)
    · exact scanDecimal_no_big_fraction h hkind
  · exact scanDecimal_no_big_fraction h hkind

/-- Claim C4: in a decimal numeric literal a dot is consumed as a
fractional part only when at least one decimal digit follows it (a dot
not followed by a digit terminates the literal and is left for the next
token); an exponent form is e followed by at least one decimal digit and
no sign character; and the big-literal suffix is mutually exclusive with
the DecimalFraction and Exponent forms. -/
theorem claim_C4 :
    (∀ (ds : List Char) (f1 : Char) (fr : List Char) (b : Char) (r : List Char),
      ds ≠ [] → (∀ c ∈ ds, c.isDigit = true) → f1.isDigit = true →
      (∀ c ∈ fr, c.isDigit = true) → b.isDigit = false → isWordStart b = false →
      scanNumber (ds ++ '.' :: (f1 :: fr ++ b :: r)) =
        (.number .DecimalFraction false (ds ++ '.' :: f1 :: fr), b :: r)) ∧
    (∀ (ds : List Char) (f1 : Char) (fr : List Char),
      ds ≠ [] → (∀ c ∈ ds, c.isDigit = true) → f1.isDigit = true →
      (∀ c ∈ fr, c.isDigit = true) →
      scanNumber (ds ++ '.' :: f1 :: fr) =
        (.number .DecimalFraction false (ds ++ '.' :: f1 :: fr), [])) ∧
    (∀ (ds : List Char) (b : Char) (r : List Char),
      ds ≠ [] → (∀ c ∈ ds, c.isDigit = true) → b.isDigit = false →
      scanNumber (ds ++ '.' :: b :: r) = (.number .Decimal false ds, '.' :: b :: r)) ∧
    (∀ ds : List Char, ds ≠ [] → (∀ c ∈ ds, c.isDigit = true) →
      scanNumber (ds ++ ['.']) = (.number .Decimal false ds, ['.'])) ∧
    (∀ (ds : List Char) (e1 : Char) (es : List Char) (b : Char) (r : List Char),
      ds ≠ [] → (∀ c ∈ ds, c.isDigit = true) → e1.isDigit = true →
      (∀ c ∈ es, c.isDigit = true) → b.isDigit = false → isWordStart b = false →
      scanNumber (ds ++ 'e' :: (e1 :: es ++ b :: r)) =
        (.number .Exponent false (ds ++ 'e' :: e1 :: es), b :: r)) ∧
    (∀ (ds : List Char) (e1 : Char) (es : List Char),
      ds ≠ [] → (∀ c ∈ ds, c.isDigit = true) → e1.isDigit = true →
      (∀ c ∈ es, c.isDigit = true) →
      scanNumber (ds ++ 'e' :: e1 :: es) =
        (.number .Exponent false (ds ++ 'e' :: e1 :: es), [])) ∧
    scanNumber "3e+2".toList = (.lexError .AdjacentIdentifier, "e+2".toList) ∧
    (∀ (input : Input) (kind : NumberKind) (big : Bool) (lexeme : List Char)
       (rest : Input),
      scanNumber input = (.number kind big lexeme, rest) → big = true →
      kind ≠ .DecimalFraction ∧ kind ≠ .Exponent) := by
  refine ⟨?_, ?_, ?_, ?_, ?_, ?_, rfl, ?_⟩
  · intro ds f1 fr b r hne hall hf1 hfr hbd hbw
    cases ds with
    | nil => exact absurd rfl hne
    | cons d ds' =>
        have hds' : ∀ c ∈ ds', c.isDigit = true :=
          fun c hc => hall c (List.mem_cons_of_mem d hc)
        simp only [List.cons_append]
        rw [scanNumber_decimal_input d ds' '.' _ (hall d (List.mem_cons_self d ds')) hds' rfl]
        have := scanDecimal_fraction_stop (d :: ds') f1 fr b r hall hf1 hfr hbd hbw
        simpa only [List.cons_append] using this
  · intro ds f1 fr hne hall hf1 hfr
    cases ds with
    | nil => exact absurd rfl hne
    | cons d ds' =>
        have hds' : ∀ c ∈ ds', c.isDigit = true :=
          fun c hc => hall c (List.mem_cons_of_mem d hc)
        simp only [List.cons_append]
        rw [scanNumber_decimal_input d ds' '.' _ (hall d (List.mem_cons_self d ds')) hds' rfl]
        have := scanDecimal_fraction_end (d :: ds') f1 fr hall hf1 hfr
        simpa only [List.cons_append] using this
  · intro ds b r hne hall hbd
    cases ds with
    | nil => exact absurd rfl hne
    | cons d ds' =>
        have hds' : ∀ c ∈ ds', c.isDigit = true :=
          fun c hc => hall c (List.mem_cons_of_mem d hc)
        simp only [List.cons_append]
        rw [scanNumber_decimal_input d ds' '.' _ (hall d (List.mem_cons_self d ds')) hds' rfl]
        have := scanDecimal_dot_left (d :: ds') b r hall hbd
        simpa only [List.cons_append] using this
  · intro ds hne hall
    cases ds with
    | nil => exact absurd rfl hne
    | cons d ds' =>
        have hds' : ∀ c ∈ ds', c.isDigit = true :=
          fun c hc => hall c (List.mem_cons_of_mem d hc)
        simp only [List.cons_append]
        rw [scanNumber_decimal_input d ds' '.' [] (hall d (List.mem_cons_self d ds')) hds' rfl]
        have := scanDecimal_dot_end (d :: ds') hall
        simpa only [List.cons_append] using this
  · intro ds e1 es b r hne hall he1 hes hbd hbw
    cases ds with
    | nil => exact absurd rfl hne
    | cons d ds' =>
        have hds' : ∀ c ∈ ds', c.isDigit = true :=
          fun c hc => hall c (List.mem_cons_of_mem d hc)
        simp only [List.cons_append]
        rw [scanNumber_decimal_input d ds' 'e' _ (hall d (List.mem_cons_self d ds')) hds' rfl]
        have := scanDecimal_exponent_stop (d :: ds') e1 es b r hall he1 hes hbd hbw
        simpa only [List.cons_append] using this
  · intro ds e1 es hne hall he1 hes
    cases ds with
    | nil => exact absurd rfl hne
    | cons d ds' =>
        have hds' : ∀ c ∈ ds', c.isDigit = true :=
          fun c hc => hall c (List.mem_cons_of_mem d hc)
        simp only [List.cons_append]
        rw [scanNumber_decimal_input d ds' 'e' _ (hall d (List.mem_cons_self d ds')) hds' rfl]
        have := scanDecimal_exponent_end (d :: ds') e1 es hall he1 hes
        simpa only [List.cons_append] using this
  · intro input kind big lexeme rest h hbig
    constructor
    · intro hk
      have := scanNumber_no_big_fraction h (Or.inl hk)
      rw [hbig] at this
      exact Bool.noConfusion this
    · intro hk
      have := scanNumber_no_big_fraction h (Or.inr hk)
      rw [hbig] at this
      exact Bool.noConfusion this

/-- Claim C4 witness: the general clauses applied to concrete decimal
literals. -/
theorem claim_C4_witness :
    scanNumber "3.25 ".toList = (.number .DecimalFraction false "3.25".toList, [' ']) ∧
    scanNumber "3.25".toList = (.number .DecimalFraction false "3.25".toList, []) ∧
    scanNumber "3.x".toList = (.number .Decimal false ['3'], ['.', 'x']) ∧
    scanNumber "3.".toList = (.number .Decimal false ['3'], ['.']) ∧
    scanNumber "3e2)".toList = (.number .Exponent false "3e2".toList, [')']) ∧
    scanNumber "3e2".toList = (.number .Exponent false "3e2".toList, []) :=
  ⟨claim_C4.1 ['3'] '2' ['5'] ' ' [] (by decide) (by decide) (by decide) (by decide)
     (by decide) (by decide),
   claim_C4.2.1 ['3'] '2' ['5'] (by decide) (by decide) (by decide) (by decide),
   claim_C4.2.2.1 ['3'] 'x' [] (by decide) (by decide) (by decide),
   claim_C4.2.2.2.1 ['3'] (by decide) (by decide),
   claim_C4.2.2.2.2.1 ['3'] '2' [] ')' [] (by decide) (by decide) (by decide)
     (by decide) (by decide) (by decide),
   claim_C4.2.2.2.2.2.1 ['3'] '2' [] (by decide) (by decide) (by decide) (by decide)⟩

/-! # Claim C5 -/

theorem escRange_ne_xu {c : Char} (h2 : c ≤ '7') : c ≠ 'x' ∧ c ≠ 'u' := by
  constructor <;> intro hEq <;> rw [hEq] at h2 <;> exact absurd h2 (by decide)

/-- Claim C5: with the backslash already consumed, the Escape Decoder
recognizes exactly these forms: x plus exactly 2 hex digits (byte value);
u plus exactly 4 hex digits, or u-brace plus one-or-more hex digits plus
a closing brace (code point); an octal run matching [0-2][0-7]x0-2 or
(3[0-6]|37|[4-7])[0-7]x0-1 (octal byte); any other single character
decodes to that literal character; and end-of-input immediately after the
backslash is a LexError DanglingEscape. -/
theorem claim_C5 :
    scanEscape [] = .error .DanglingEscape ∧
    (∀ (c1 c2 : Char) (r : Input), isHexDigit c1 = true → isHexDigit c2 = true →
      scanEscape ('x' :: c1 :: c2 :: r) =
        .ok (.byteVal (16 * hexDigitVal c1 + hexDigitVal c2), r)) ∧
    (∀ (c1 c2 : Char) (r : Input), ¬(isHexDigit c1 = true ∧ isHexDigit c2 = true) →
      scanEscape ('x' :: c1 :: c2 :: r) = .ok (.lit 'x', c1 :: c2 :: r)) ∧
    scanEscape ['x'] = .ok (.lit 'x', []) ∧
    (∀ c1 : Char, scanEscape ['x', c1] = .ok (.lit 'x', [c1])) ∧
    (∀ (c1 c2 c3 c4 : Char) (r : Input),
      isHexDigit c1 = true → isHexDigit c2 = true → isHexDigit c3 = true →
      isHexDigit c4 = true →
      scanEscape ('u' :: c1 :: c2 :: c3 :: c4 :: r) =
        .ok (.codePoint (hexVal [c1, c2, c3, c4]), r)) ∧
    (∀ (ds : List Char) (r : Input), ds ≠ [] → (∀ c ∈ ds, isHexDigit c = true) →
      scanEscape ('u' :: '{' :: (ds ++ '}' :: r)) = .ok (.codePoint (hexVal ds), r)) ∧
    (∀ r : Input, scanEscape ('u' :: '{' :: '}' :: r) = .ok (.lit 'u', '{' :: '}' :: r)) ∧
    (∀ (c d e : Char) (r : Input), '0' ≤ c → c ≤ '2' →
      isOctalDigit d = true → isOctalDigit e = true →
      scanEscape (c :: d :: e :: r) = .ok (.octalByte (octVal [c, d, e]), r)) ∧
    (∀ (c d b : Char) (r : Input), '0' ≤ c → c ≤ '2' →
      isOctalDigit d = true → isOctalDigit b = false →
      scanEscape (c :: d :: b :: r) = .ok (.octalByte (octVal [c, d]), b :: r)) ∧
    (∀ c d : Char, '0' ≤ c → c ≤ '2' → isOctalDigit d = true →
      scanEscape [c, d] = .ok (.octalByte (octVal [c, d]), [])) ∧
    (∀ (c b : Char) (r : Input), '0' ≤ c → c ≤ '2' → isOctalDigit b = false →
      scanEscape (c :: b :: r) = .ok (.octalByte (octVal [c]), b :: r)) ∧
    (∀ c : Char, '0' ≤ c → c ≤ '2' → scanEscape [c] = .ok (.octalByte (octVal [c]), [])) ∧
    (∀ (d e : Char) (r : Input), isOctalDigit d = true → isOctalDigit e = true →
      scanEscape ('3' :: d :: e :: r) = .ok (.octalByte (octVal ['3', d, e]), r)) ∧
    (∀ (d b : Char) (r : Input), isOctalDigit d = true → isOctalDigit b = false →
      scanEscape ('3' :: d :: b :: r) = .ok (.octalByte (octVal ['3', d]), b :: r)) ∧
    (∀ d : Char, isOctalDigit d = true →
      scanEscape ['3', d] = .ok (.octalByte (octVal ['3', d]), [])) ∧
    (∀ (b : Char) (r : Input), isOctalDigit b = false →
      scanEscape ('3' :: b :: r) = .ok (.lit '3', b :: r)) ∧
    scanEscape ['3'] = .ok (.lit '3', []) ∧
    (∀ (c d : Char) (r : Input), '4' ≤ c → c ≤ '7' → isOctalDigit d = true →
      scanEscape (c :: d :: r) = .ok (.octalByte (octVal [c, d]), r)) ∧
    (∀ (c b : Char) (r : Input), '4' ≤ c → c ≤ '7' → isOctalDigit b = false →
      scanEscape (c :: b :: r) = .ok (.octalByte (octVal [c]), b :: r)) ∧
    (∀ c : Char, '4' ≤ c → c ≤ '7' → scanEscape [c] = .ok (.octalByte (octVal [c]), [])) ∧
    (∀ (c : Char) (r : Input), c ≠ 'x' → c ≠ 'u' → ¬('0' ≤ c ∧ c ≤ '7') →
      scanEscape (c :: r) = .ok (.lit c, r)) := by
  refine ⟨rfl, ?_, ?_, rfl, ?_, ?_, ?_, ?_, ?_, ?_, ?_, ?_, ?_, ?_, ?_, ?_, ?_, rfl,
    ?_, ?_, ?_, ?_⟩
  · intro c1 c2 r h1 h2
    simp [scanEscape, h1, h2]
  · intro c1 c2 r h12
    simp only [scanEscape]
    simp [Bool.and_eq_true, h12]
  · intro c1
    rfl
  · intro c1 c2 c3 c4 r h1 h2 h3 h4
    have hb : c1 ≠ '{' := by
      intro hEq
      rw [hEq] at h1
      exact absurd h1 (by decide)
    simp only [scanEscape]
    rw [if_neg (show ¬('u' : Char) = 'x' by decide)]
    simp only [if_true]
    split
    · rename_i heq
      exact absurd (List.head_eq_of_cons_eq heq) hb
    · simp [h1, h2, h3, h4]
  · intro ds r hne hall
    cases ds with
    | nil => exact absurd rfl hne
    | cons d ds' =>
        have hd := hall d (List.mem_cons_self d ds')
        have hbr : isHexDigit '}' = false := by decide
        simp only [scanEscape, List.cons_append]
        rw [show (d :: (ds' ++ '}' :: r)).takeWhile isHexDigit = d :: ds' from ?_,
            show (d :: (ds' ++ '}' :: r)).dropWhile isHexDigit = '}' :: r from ?_]
        · rfl
        · have := dropWhile_append_cons isHexDigit (d :: ds') '}' r hall hbr
          simpa only [List.cons_append] using this
        · have := takeWhile_append_cons isHexDigit (d :: ds') '}' r hall hbr
          simpa only [List.cons_append] using this
  · intro r
    rfl
  · intro c d e r h0 h2 hd he
    obtain ⟨hx, hu⟩ := escRange_ne_xu (le_trans h2 (by decide))
    simp [scanEscape, hx, hu, h0, h2, hd, he]
  · intro c d b r h0 h2 hd hb
    obtain ⟨hx, hu⟩ := escRange_ne_xu (le_trans h2 (by decide))
    simp [scanEscape, hx, hu, h0, h2, hd, hb]
  · intro c d h0 h2 hd
    obtain ⟨hx, hu⟩ := escRange_ne_xu (le_trans h2 (by decide))
    simp [scanEscape, hx, hu, h0, h2, hd]
  · intro c b r h0 h2 hb
    obtain ⟨hx, hu⟩ := escRange_ne_xu (le_trans h2 (by decide))
    cases r with
    | nil => simp [scanEscape, hx, hu, h0, h2, hb]
    | cons e r' => simp [scanEscape, hx, hu, h0, h2, hb]
  · intro c h0 h2
    obtain ⟨hx, hu⟩ := escRange_ne_xu (le_trans h2 (by decide))
    simp [scanEscape, hx, hu, h0, h2]
  · intro d e r hd he
    simp [scanEscape, hd, he]
  · intro d b r hd hb
    simp [scanEscape, hd, hb]
  · intro d hd
    simp [scanEscape, hd]
  · intro b r hb
    simp [scanEscape, hb]
  · intro c d r h4 h7 hd
    obtain ⟨hx, hu⟩ := escRange_ne_xu h7
    have h02 : ¬('0' ≤ c ∧ c ≤ '2') := by
      intro hc
      exact absurd (le_trans h4 hc.2) (by decide)
    have h3 : c ≠ '3' := by
      intro hEq
      rw [hEq] at h4
      exact absurd h4 (by decide)
    simp [scanEscape, hx, hu, h02, h3, h4, h7, hd]
  · intro c b r h4 h7 hb
    obtain ⟨hx, hu⟩ := escRange_ne_xu h7
    have h02 : ¬('0' ≤ c ∧ c ≤ '2') := by
      intro hc
      exact absurd (le_trans h4 hc.2) (by decide)
    have h3 : c ≠ '3' := by
      intro hEq
      rw [hEq] at h4
      exact absurd h4 (by decide)
    simp [scanEscape, hx, hu, h02, h3, h4, h7, hb]
  · intro c h4 h7
    obtain ⟨hx, hu⟩ := escRange_ne_xu h7
    have h02 : ¬('0' ≤ c ∧ c ≤ '2') := by
      intro hc
      exact absurd (le_trans h4 hc.2) (by decide)
    have h3 : c ≠ '3' := by
      intro hEq
      rw [hEq] at h4
      exact absurd h4 (by decide)
    simp [scanEscape, hx, hu, h02, h3, h4, h7]
  · intro c r hx hu h07
    have h02 : ¬('0' ≤ c ∧ c ≤ '2') :=
      fun hc => h07 ⟨hc.1, le_trans hc.2 (by decide)⟩
    have h3 : c ≠ '3' := by
      intro hEq
      exact h07 (by rw [hEq]; exact ⟨by decide, by decide⟩)
    have h47 : ¬('4' ≤ c ∧ c ≤ '7') :=
      fun hc => h07 ⟨le_trans (by decide) hc.1, hc.2⟩
    simp [scanEscape, hx, hu, h02, h3, h47]

/-- Claim C5 witness: each escape form at a concrete input. -/
theorem claim_C5_witness :
    scanEscape "x1Fq".toList = .ok (.byteVal 31, ['q']) ∧
    scanEscape "xZw".toList = .ok (.lit 'x', "Zw".toList) ∧
    scanEscape "x9".toList = .ok (.lit 'x', ['9']) ∧
    scanEscape "u00e9*".toList = .ok (.codePoint (hexVal "00e9".toList), ['*']) ∧
    scanEscape "u{1F600}!".toList = .ok (.codePoint (hexVal "1F600".toList), ['!']) ∧
    scanEscape "0123".toList = .ok (.octalByte (octVal "012".toList), ['3']) ∧
    scanEscape "08".toList = .ok (.octalByte (octVal ['0']), ['8']) ∧
    scanEscape "365q".toList = .ok (.octalByte (octVal "365".toList), ['q']) ∧
    scanEscape "38".toList = .ok (.lit '3', ['8']) ∧
    scanEscape "47".toList = .ok (.octalByte (octVal "47".toList), []) ∧
    scanEscape "4z".toList = .ok (.octalByte (octVal ['4']), ['z']) ∧
    scanEscape "nq".toList = .ok (.lit 'n', ['q']) :=
  ⟨claim_C5.2.1 '1' 'F' ['q'] (by decide) (by decide),
   claim_C5.2.2.1 'Z' 'w' [] (by decide),
   claim_C5.2.2.2.2.1 '9',
   claim_C5.2.2.2.2.2.1 '0' '0' 'e' '9' ['*'] (by decide) (by decide) (by decide) (by decide),
   claim_C5.2.2.2.2.2.2.1 "1F600".toList ['!'] (by decide) (by decide),
   claim_C5.2.2.2.2.2.2.2.2.1 '0' '1' '2' ['3'] (by decide) (by decide) (by decide) (by decide),
   claim_C5.2.2.2.2.2.2.2.2.2.2.2.1 '0' '8' [] (by decide) (by decide) (by decide),
   claim_C5.2.2.2.2.2.2.2.2.2.2.2.2.2.1 '6' '5' ['q'] (by decide) (by decide),
   claim_C5.2.2.2.2.2.2.2.2.2.2.2.2.2.2.2.2.1 '8' [] (by decide),
   claim_C5.2.2.2.2.2.2.2.2.2.2.2.2.2.2.2.2.2.2.1 '4' '7' [] (by decide) (by decide) (by decide),
   claim_C5.2.2.2.2.2.2.2.2.2.2.2.2.2.2.2.2.2.2.2.1 '4' 'z' [] (by decide) (by decide) (by decide),
   claim_C5.2.2.2.2.2.2.2.2.2.2.2.2.2.2.2.2.2.2.2.2.2 'n' ['q'] (by decide) (by decide) (by decide)⟩

/-! # Claim C6 -/

/-- Claim C6: a character literal started by a quote accepts exactly one
logical character — one raw character or one escape sequence — followed
immediately by a closing quote; zero logical characters, more than one,
or a missing closing quote is a LexError InvalidCharacterLiteral.  The
scanner here starts after the opening quote. -/
theorem claim_C6 :
    (∀ (c : Char) (r : Input), c ≠ '\'' → c ≠ '\\' →
      scanCharLit (c :: '\'' :: r) = (.character (.lit c), r)) ∧
    (∀ (r r2 : Input) (e : Esc), scanEscape r = .ok (e, '\'' :: r2) →
      scanCharLit ('\\' :: r) = (.character e, r2)) ∧
    (∀ r : Input, scanCharLit ('\'' :: r) = (.lexError .InvalidCharacterLiteral, r)) ∧
    (∀ (c c2 : Char) (r : Input), c ≠ '\'' → c ≠ '\\' → c2 ≠ '\'' →
      scanCharLit (c :: c2 :: r) = (.lexError .InvalidCharacterLiteral, c2 :: r)) ∧
    (∀ c : Char, c ≠ '\'' → c ≠ '\\' →
      scanCharLit [c] = (.lexError .InvalidCharacterLiteral, [])) ∧
    scanCharLit [] = (.lexError .InvalidCharacterLiteral, []) ∧
    (∀ (r r2 : Input) (e : Esc) (c2 : Char), scanEscape r = .ok (e, c2 :: r2) →
      c2 ≠ '\'' →
      scanCharLit ('\\' :: r) = (.lexError .InvalidCharacterLiteral, c2 :: r2)) ∧
    (∀ (r : Input) (e : Esc), scanEscape r = .ok (e, []) →
      scanCharLit ('\\' :: r) = (.lexError .InvalidCharacterLiteral, [])) := by
  refine ⟨?_, ?_, ?_, ?_, ?_, rfl, ?_, ?_⟩
  · intro c r hq hb
    exact scanCharLit.eq_4 c r hq hb
  · intro r r2 e h
    simp [scanCharLit.eq_3, h]
  · intro r
    exact scanCharLit.eq_2 r
  · intro c c2 r hq hb hc2
    exact scanCharLit.eq_5 c (c2 :: r) hq hb
      (fun rest2 heq => hc2 (List.head_eq_of_cons_eq heq))
  · intro c hq hb
    exact scanCharLit.eq_5 c [] hq hb (fun rest2 heq => List.noConfusion heq)
  · intro r r2 e c2 h hc2
    simp only [scanCharLit.eq_3, h]
    split
    · rename_i heq3
      exact absurd (List.head_eq_of_cons_eq heq3) hc2
    · rfl
  · intro r e h
    simp [scanCharLit.eq_3, h]

/-- Claim C6 witness: the clauses at concrete character literals. -/
theorem claim_C6_witness :
    scanCharLit "a'rest".toList = (.character (.lit 'a'), "rest".toList) ∧
    scanCharLit "\\x41'z".toList = (.character (.byteVal 65), ['z']) ∧
    scanCharLit "''".toList = (.lexError .InvalidCharacterLiteral, ['\'']) ∧
    scanCharLit "ab'".toList = (.lexError .InvalidCharacterLiteral, "b'".toList) ∧
    scanCharLit "a".toList = (.lexError .InvalidCharacterLiteral, []) ∧
    scanCharLit "\\nx".toList = (.lexError .InvalidCharacterLiteral, ['x']) ∧
    scanCharLit "\\n".toList = (.lexError .InvalidCharacterLiteral, []) :=
  ⟨claim_C6.1 'a' "rest".toList (by decide) (by decide),
   claim_C6.2.1 "x41'z".toList ['z'] (.byteVal 65) (by rfl),
   claim_C6.2.2.1 ['\''],
   claim_C6.2.2.2.1 'a' 'b' ['\''] (by decide) (by decide) (by decide),
   claim_C6.2.2.2.2.1 'a' (by decide) (by decide),
   claim_C6.2.2.2.2.2.2.1 ['n', 'x'] [] (.lit 'n') 'x' (by rfl) (by decide),
   claim_C6.2.2.2.2.2.2.2 ['n'] (.lit 'n') (by rfl)⟩

/-! # Claim C7 -/

theorem hasStarSlash_cons_false {c : Char} {cs : List Char}
    (h : hasStarSlash (c :: cs) = false) : hasStarSlash cs = false := by
  rw [hasStarSlash.eq_def] at h
  split at h
  · exact Bool.noConfusion h
  · rename_i heq
    injection heq with h1 h2
    rw [h2]
    exact h
  · rename_i heq
    exact List.noConfusion heq

/-- Claim C7: a block comment is non-nesting: it closes at the first
star-slash encountered regardless of intervening slash-star openers, so
the example input closes at the first star-slash and the remainder is
scanned as subsequent tokens; a block comment unterminated at
end-of-input is a LexError UnterminatedComment. -/
theorem claim_C7 :
    (∀ (s : List Char) (r : Input), hasStarSlash s = false →
      scanBlockComment (s ++ '*' :: '/' :: r) = some (s, r)) ∧
    (∀ s : List Char, hasStarSlash s = false → scanBlockComment s = none) ∧
    tokenize 400 "/* outer /* inner */ still in comment */".toList =
      .stream [.comment false " outer /* inner ".toList,
               .identifier "still", .keyword "in" false, .identifier "comment",
               .operator "*/".toList, .endOfInput] ∧
    tokenize 100 "/* abc".toList = .stream [.lexError .UnterminatedComment, .endOfInput] := by
  refine ⟨?_, ?_, by rfl, by rfl⟩
  · intro s
    induction s with
    | nil => intro r _; rfl
    | cons c s' ih =>
        intro r h
        rw [scanBlockComment.eq_def]
        split
        · rename_i heq
          exact List.noConfusion heq
        · rename_i heq
          injection heq with h1 h2
          cases s' with
          | nil =>
              exact absurd (List.head_eq_of_cons_eq h2) (by decide)
          | cons c2 s'' =>
              have hc2 : c2 = '/' := List.head_eq_of_cons_eq h2
              have htrue : hasStarSlash ('*' :: '/' :: s'') = true := rfl
              rw [h1, hc2] at h
              rw [htrue] at h
              exact Bool.noConfusion h
        · rename_i heq
          injection heq with h1 h2
          rw [← h2]
          simp only [List.append_eq]
          rw [ih r (hasStarSlash_cons_false h), ← h1]
  · intro s
    induction s with
    | nil => intro _; rfl
    | cons c s' ih =>
        intro h
        rw [scanBlockComment.eq_def]
        split
        · rename_i heq
          exact List.noConfusion heq
        · rename_i heq
          injection heq with h1 h2
          rw [h1, h2] at h
          exact Bool.noConfusion h
        · rename_i heq
          injection heq with h1 h2
          rw [← h2]
          rw [ih (hasStarSlash_cons_false h)]

/-- Claim C7 witness: the general clauses at concrete comment bodies. -/
theorem claim_C7_witness :
    scanBlockComment (" x /* y ".toList ++ '*' :: '/' :: ['z']) =
      some (" x /* y ".toList, ['z']) ∧
    scanBlockComment " abc ".toList = none :=
  ⟨claim_C7.1 " x /* y ".toList ['z'] (by decide),
   claim_C7.2.1 " abc ".toList (by decide)⟩

/-! # Claim C8 -/

/-- One-step unfolding of the tokenizer for a one-token job. -/
theorem run_one_eq (fuel depth : Nat) (input : Input) :
    run (fuel + 1) (.one depth input) =
      (match input.dropWhile isWsChar with
       | [] => .tok .endOfInput []
       | c :: rest =>
           match dispatch c rest with
           | .tok t r => .tok t r
           | .enterString r => run fuel (.str depth r [] [])) := rfl

/-- One-step unfolding of the tokenizer for a string-body job. -/
theorem run_str_eq (fuel depth : Nat) (input : Input) (cur : List Char)
    (acc : List Segment) :
    run (fuel + 1) (.str depth input cur acc) =
      (match input with
       | [] => .tok (.lexError .UnterminatedString) []
       | '"' :: rest => .tok (.string (closeSegments cur acc)) rest
       | '\\' :: rest =>
           match scanEscape rest with
           | .error k => .tok (.lexError k) []
           | .ok (e, rest2) => run fuel (.str depth rest2 (cur ++ [escChar e]) acc)
       | '#' :: '{' :: rest =>
           if MAX_INTERPOLATION_DEPTH < depth + 1 then .fatal .InterpolationTooDeep
           else
             match run fuel (.interp (depth + 1) rest 0 []) with
             | .toks ts rest2 =>
                 run fuel (.str depth rest2 [] (pushLiteral cur acc ++ [.interpolation ts]))
             | .fatal k => .fatal k
             | _ => .outOfFuel
       | c :: rest => run fuel (.str depth rest (cur ++ [c]) acc)) := rfl

/-- One-step unfolding of the tokenizer for an interpolation-loop job. -/
theorem run_interp_eq (fuel depth : Nat) (input : Input) (braces : Nat)
    (acc : List Token) :
    run (fuel + 1) (.interp depth input braces acc) =
      (match run fuel (.one depth input) with
       | .tok (.bracket c) rest =>
           if c = '}' then
             if braces = 0 then .toks acc rest
             else run fuel (.interp depth rest (braces - 1) (acc ++ [.bracket c]))
           else if c = '{' then
             run fuel (.interp depth rest (braces + 1) (acc ++ [.bracket c]))
           else run fuel (.interp depth rest braces (acc ++ [.bracket c]))
       | .tok .endOfInput rest => .toks acc rest
       | .tok t rest => run fuel (.interp depth rest braces (acc ++ [t]))
       | .fatal k => .fatal k
       | _ => .outOfFuel) := rfl

/-- One-step unfolding of the tokenizer for a whole-stream job. -/
theorem run_top_eq (fuel depth : Nat) (input : Input) (acc : List Token) :
    run (fuel + 1) (.top depth input acc) =
      (match run fuel (.one depth input) with
       | .tok .endOfInput _ => .stream (acc ++ [.endOfInput])
       | .tok t rest => run fuel (.top depth rest (acc ++ [t]))
       | .fatal k => .fatal k
       | _ => .outOfFuel) := rfl

/-- The only fatal result the tokenizer ever produces is
InterpolationTooDeep: every other lexical error is emitted as a LexError
token in stream order. -/
theorem run_fatal_only :
    ∀ (fuel : Nat) (job : Job) (k : LexErrorKind),
      run fuel job = .fatal k → k = .InterpolationTooDeep := by
  intro fuel
  induction fuel with
  | zero =>
      intro job k h
      exact Res.noConfusion h
  | succ fuel ih =>
      intro job k h
      cases job with
      | one depth input =>
          rw [run_one_eq] at h
          split at h
          · exact Res.noConfusion h
          · split at h
            · exact Res.noConfusion h
            · exact ih _ k h
      | str depth input cur acc =>
          rw [run_str_eq] at h
          split at h
          · exact Res.noConfusion h
          · exact Res.noConfusion h
          · split at h
            · exact Res.noConfusion h
            · exact ih _ k h
          · split at h
            · injection h with hk
              exact hk.symm
            · split at h
              · exact ih _ k h
              · rename_i k2 heq
                injection h with hk
                rw [← hk]
                exact ih _ k2 heq
              · exact Res.noConfusion h
          · exact ih _ k h
      | interp depth input braces acc =>
          rw [run_interp_eq] at h
          split at h
          · split at h
            · split at h
              · exact Res.noConfusion h
              · exact ih _ k h
            · split at h
              · exact ih _ k h
              · exact ih _ k h
          · exact Res.noConfusion h
          · exact ih _ k h
          · rename_i k2 heq
            injection h with hk
            rw [← hk]
            exact ih _ k2 heq
          · exact Res.noConfusion h
      | top depth input acc =>
          rw [run_top_eq] at h
          split at h
          · exact Res.noConfusion h
          · exact ih _ k h
          · rename_i k2 heq
            injection h with hk
            rw [← hk]
            exact ih _ k2 heq
          · exact Res.noConfusion h

/-- Claim C8: the recursion depth of nested string interpolations is
bounded by the fixed maximum 32; an input exceeding that depth produces a
fatal LexError InterpolationTooDeep that aborts the current scan, while
depth 32 still scans to a clean stream; and InterpolationTooDeep is the
sole fatal, non-locally-recoverable result of the scanner. -/
theorem claim_C8 :
    (∀ (fuel : Nat) (job : Job) (k : LexErrorKind),
      run fuel job = .fatal k → k = .InterpolationTooDeep) ∧
    MAX_INTERPOLATION_DEPTH = 32 ∧
    tokenize 4000 (deepNest 33) = .fatal .InterpolationTooDeep ∧
    (tokenize 4000 (deepNest 32)).isStream = true := by
  refine ⟨run_fatal_only, rfl, by rfl, by rfl⟩

/-- Claim C8 witness: the sole-fatal clause applied to the concrete
too-deep scan. -/
theorem claim_C8_witness :
    LexErrorKind.InterpolationTooDeep = LexErrorKind.InterpolationTooDeep :=
  claim_C8.1 4000 (.top 0 (deepNest 33) []) .InterpolationTooDeep (by rfl)

/-! # Claim C1 -/

/-- The word classifier never yields bracket or end-of-input tokens. -/
theorem classifyWord_plain (a : Bool) (w : String) :
    (∀ b, classifyWord a w ≠ .bracket b) ∧ classifyWord a w ≠ .endOfInput := by
  unfold classifyWord
  repeat' split
  all_goals exact ⟨fun b h => Token.noConfusion h, fun h => Token.noConfusion h⟩

theorem scanWord_plain (input : Input) :
    (∀ b, (scanWord input).1 ≠ .bracket b) ∧ (scanWord input).1 ≠ .endOfInput := by
  rw [scanWord.eq_def]
  split
  · exact classifyWord_plain true _
  · exact classifyWord_plain false _

theorem numBoundary_plain (kind : NumberKind) (big : Bool) (lexeme : List Char)
    (rest : Input) :
    (∀ b, (numBoundary kind big lexeme rest).1 ≠ .bracket b) ∧
    (numBoundary kind big lexeme rest).1 ≠ .endOfInput := by
  unfold numBoundary
  repeat' split
  all_goals exact ⟨fun b h => Token.noConfusion h, fun h => Token.noConfusion h⟩

theorem scanDecimal_plain (input : Input) :
    (∀ b, (scanDecimal input).1 ≠ .bracket b) ∧ (scanDecimal input).1 ≠ .endOfInput := by
  unfold scanDecimal
  simp only []
  repeat' split
  all_goals first
    | exact numBoundary_plain _ _ _ _
    | exact ⟨fun b h => Token.noConfusion h, fun h => Token.noConfusion h⟩

theorem scanNumber_plain (input : Input) :
    (∀ b, (scanNumber input).1 ≠ .bracket b) ∧ (scanNumber input).1 ≠ .endOfInput := by
  rw [scanNumber.eq_def]
  repeat' first
    | split
    | simp only []
  all_goals first
    | exact scanDecimal_plain _
    | exact numBoundary_plain _ _ _ _
    | exact ⟨fun b h => Token.noConfusion h, fun h => Token.noConfusion h⟩

theorem scanCharLit_plain (input : Input) :
    (∀ b, (scanCharLit input).1 ≠ .bracket b) ∧ (scanCharLit input).1 ≠ .endOfInput := by
  rw [scanCharLit.eq_def]
  repeat' split
  all_goals exact ⟨fun b h => Token.noConfusion h, fun h => Token.noConfusion h⟩

/-- A dispatched token is never end-of-input, and is a bracket token only
from the bracket arm: the bracket character itself, consuming exactly one
character. -/
theorem dispatch_tok_plain {c : Char} {rest : Input} {t : Token} {r : Input}
    (h : dispatch c rest = .tok t r) :
    t ≠ .endOfInput ∧ (∀ b, t = .bracket b → b = c ∧ r = rest) := by
  unfold dispatch at h
  repeat' split at h
  all_goals try exact Dispatched.noConfusion h
  all_goals injection h with h1 h2
  all_goals rw [← h1]
  all_goals try rw [← h2]
  all_goals first
    | exact ⟨(scanCharLit_plain _).2, fun b hb => absurd hb ((scanCharLit_plain _).1 b)⟩
    | exact ⟨(scanNumber_plain _).2, fun b hb => absurd hb ((scanNumber_plain _).1 b)⟩
    | exact ⟨(scanWord_plain _).2, fun b hb => absurd hb ((scanWord_plain _).1 b)⟩
    | exact ⟨fun hh => Token.noConfusion hh, fun b hb => ⟨(Token.bracket.inj hb).symm, rfl⟩⟩
    | exact ⟨fun hh => Token.noConfusion hh, fun b hb => Token.noConfusion hb⟩

/-- A string-body job only ever yields a String token or a recoverable
LexError token. -/
theorem run_str_tok_shape :
    ∀ (fuel : Nat) {depth : Nat} {input : Input} {cur : List Char}
      {acc : List Segment} {t : Token} {rest : Input},
      run fuel (.str depth input cur acc) = .tok t rest →
      (∃ segs, t = .string segs) ∨ (∃ k, t = .lexError k) := by
  intro fuel
  induction fuel with
  | zero =>
      intro depth input cur acc t rest h
      exact Res.noConfusion h
  | succ fuel ih =>
      intro depth input cur acc t rest h
      rw [run_str_eq] at h
      split at h
      · injection h with h1 h2
        exact Or.inr ⟨_, h1.symm⟩
      · injection h with h1 h2
        exact Or.inl ⟨_, h1.symm⟩
      · split at h
        · injection h with h1 h2
          exact Or.inr ⟨_, h1.symm⟩
        · exact ih h
      · split at h
        · exact Res.noConfusion h
        · split at h
          · exact ih h
          · exact Res.noConfusion h
          · exact Res.noConfusion h
      · exact ih h

/-- A one-token result: an end-of-input token leaves an empty rest, and a
bracket token is exactly the bracket character consumed from the front of
the input (after leading whitespace). -/
theorem run_one_tok {fuel depth : Nat} {input : Input} {t : Token} {rest : Input}
    (h : run fuel (.one depth input) = .tok t rest) :
    (t = .endOfInput → rest = []) ∧
    (∀ b, t = .bracket b → ∃ pre, input = pre ++ b :: rest) := by
  cases fuel with
  | zero => exact Res.noConfusion h
  | succ fuel =>
      rw [run_one_eq] at h
      split at h
      · injection h with h1 h2
        constructor
        · intro _
          exact h2.symm
        · intro b hb
          rw [← h1] at hb
          exact Token.noConfusion hb
      · rename_i c r0 heq0
        split at h
        · rename_i t0 r1 hd
          injection h with h1 h2
          constructor
          · intro he
            exact absurd (h1.trans he) (dispatch_tok_plain hd).1
          · intro b hb
            obtain ⟨hbc, hrr⟩ := (dispatch_tok_plain hd).2 b (h1.trans hb)
            subst hbc
            subst hrr
            rw [← h2]
            refine ⟨input.takeWhile isWsChar, ?_⟩
            conv_lhs => rw [← List.takeWhile_append_dropWhile (p := isWsChar) (l := input)]
            rw [heq0]
        · rcases run_str_tok_shape fuel h with ⟨segs, hs⟩ | ⟨k, hs⟩
          · exact ⟨fun he => by rw [hs] at he; exact Token.noConfusion he,
                   fun b hb => by rw [hs] at hb; exact Token.noConfusion hb⟩

          · exact ⟨fun he => by rw [hs] at he; exact Token.noConfusion he,
                   fun b hb => by rw [hs] at hb; exact Token.noConfusion hb⟩

/-! ## Consumption only moves forward: every rest is a suffix -/

theorem pre_refl (l : List Char) : ∃ p, l = p ++ l := ⟨[], rfl⟩

theorem pre_nil (l : List Char) : ∃ p, l = p ++ [] := ⟨l, by simp⟩

theorem pre_cons (c : Char) (l : List Char) : ∃ p, c :: l = p ++ l := ⟨[c], rfl⟩

theorem pre_step {c : Char} {l r : List Char} (h : ∃ p, l = p ++ r) :
    ∃ p, c :: l = p ++ r := by
  obtain ⟨p, hp⟩ := h
  exact ⟨c :: p, by rw [hp]; rfl⟩

theorem pre_trans {a b c : List Char} (h1 : ∃ p, a = p ++ b) (h2 : ∃ q, b = q ++ c) :
    ∃ r2, a = r2 ++ c := by
  obtain ⟨p, hp⟩ := h1
  obtain ⟨q, hq⟩ := h2
  exact ⟨p ++ q, by rw [hp, hq, List.append_assoc]⟩

theorem pre_dropWhile (p : Char → Bool) (l : List Char) :
    ∃ pre, l = pre ++ l.dropWhile p :=
  ⟨l.takeWhile p, (List.takeWhile_append_dropWhile p l).symm⟩

theorem pre_onto_dropWhile {p : Char → Bool} {l r : List Char}
    (h : ∃ q, l.dropWhile p = q ++ r) : ∃ pre, l = pre ++ r :=
  pre_trans (pre_dropWhile p l) h

/-- The escape decoder only consumes from the front. -/
theorem scanEscape_suffix (input : Input) {e : Esc} {rest : Input}
    (h : scanEscape input = .ok (e, rest)) : ∃ pre, input = pre ++ rest := by
  rw [scanEscape.eq_def] at h
  split at h
  · exact Except.noConfusion h
  · rename_i c rest0
    repeat' split at h
    all_goals injection h with h1
    all_goals injection h1 with hE hR
    all_goals rw [← hR]
    all_goals repeat' first
      | exact pre_refl _
      | exact pre_nil _
      | apply pre_step
    all_goals rename_i heq1 heq2
    all_goals exact pre_trans (pre_dropWhile isHexDigit _) ⟨['}'], by simp [heq2]⟩

theorem numBoundary_rest (kind : NumberKind) (big : Bool) (lexeme : List Char)
    (rest : Input) : (numBoundary kind big lexeme rest).2 = rest := by
  unfold numBoundary
  repeat' split
  all_goals rfl

/-- The decimal scanner only consumes from the front. -/
theorem scanDecimal_suffix (input : Input) :
    ∃ pre, input = pre ++ (scanDecimal input).2 := by
  unfold scanDecimal
  simp only []
  repeat' split
  all_goals try rw [numBoundary_rest]
  all_goals refine pre_onto_dropWhile (p := Char.isDigit) ?_
  all_goals try simp only [*]
  all_goals first
    | exact pre_refl _
    | exact pre_step (pre_refl _)
    | exact pre_step (pre_dropWhile Char.isDigit _)
    | exact pre_step (pre_trans (pre_dropWhile Char.isDigit _) ⟨[], by simp [*]⟩)

/-- The number scanner only consumes from the front. -/
theorem scanNumber_suffix (input : Input) :
    ∃ pre, input = pre ++ (scanNumber input).2 := by
  rw [scanNumber.eq_def]
  split
  · rename_i p rest0
    cases hbase : baseRadix p with
    | none => exact scanDecimal_suffix _
    | some kd =>
        obtain ⟨kind, isD⟩ := kd
        simp only []
        split
        · exact pre_step (pre_step (pre_dropWhile isD rest0))
        · split
          · rename_i r1 heq
            rw [numBoundary_rest]
            exact pre_step (pre_step (pre_trans (pre_dropWhile isD rest0)
              ⟨['n'], by simp [heq]⟩))
          · rw [numBoundary_rest]
            exact pre_step (pre_step (pre_dropWhile isD rest0))
  · exact scanDecimal_suffix _

/-- The word scanner only consumes from the front. -/
theorem scanWord_suffix (input : Input) :
    ∃ pre, input = pre ++ (scanWord input).2 := by
  rw [scanWord.eq_def]
  split
  · exact pre_step (pre_dropWhile isWordChar _)
  · exact pre_dropWhile isWordChar _

/-- The character literal scanner only consumes from the front. -/
theorem scanCharLit_suffix (input : Input) :
    ∃ pre, input = pre ++ (scanCharLit input).2 := by
  rw [scanCharLit.eq_def]
  split
  · exact pre_nil _
  · exact pre_cons _ _
  · rename_i rest0
    split
    · exact pre_nil _
    · rename_i e r2 heqE
      split
      · exact pre_step (pre_trans (scanEscape_suffix rest0 heqE) ⟨['\''], by simp_all⟩)
      · exact pre_step (scanEscape_suffix rest0 heqE)
  · rename_i c rest0 d1 d2
    split
    · exact pre_step ⟨['\''], by simp_all⟩
    · exact pre_cons _ _

/-- The block comment scanner only consumes from the front. -/
theorem scanBlockComment_suffix :
    ∀ (input : Input) {body : List Char} {rest : Input},
      scanBlockComment input = some (body, rest) → ∃ pre, input = pre ++ rest := by
  intro input
  induction input with
  | nil =>
      intro body rest h
      exact Option.noConfusion h
  | cons c tail ih =>
      intro body rest h
      rw [scanBlockComment.eq_def] at h
      split at h
      · rename_i heq
        exact List.noConfusion heq
      · rename_i r2 heq
        injection h with h1
        injection h1 with hB hR
        rw [← hR]
        injection heq with hc htail
        rw [htail]
        exact pre_step (pre_cons '/' r2)
      · rename_i c2 rest2 heq0
        injection heq0 with hc0 ht0
        rw [← ht0] at h
        split at h
        · rename_i b2 r3 heq2
          injection h with h1
          injection h1 with hB hR
          rw [← hR]
          exact pre_step (ih heq2)
        · exact Option.noConfusion h

/-- Any dispatched token only consumes from the front of the input. -/
theorem dispatch_suffix {c : Char} {rest : Input} {t : Token} {r : Input}
    (h : dispatch c rest = .tok t r) : ∃ pre, c :: rest = pre ++ r := by
  unfold dispatch at h
  repeat' split at h
  all_goals try exact Dispatched.noConfusion h
  all_goals injection h with h1 h2
  all_goals rw [← h2]
  all_goals try clear h1 h2
  all_goals try simp only [lineCommentRest]
  all_goals try simp only [*]
  all_goals first
    | exact pre_step (scanCharLit_suffix _)
    | exact scanNumber_suffix _
    | exact scanWord_suffix _
    | exact pre_dropWhile isOpChar _
    | exact pre_nil _
    | exact pre_cons _ _
    | exact pre_step (pre_step (pre_dropWhile _ _))
    | exact pre_step (pre_step (scanBlockComment_suffix _ (by assumption)))

/-- Entering a string consumes exactly the opening quote position. -/
theorem dispatch_enterString {c : Char} {rest r : Input}
    (h : dispatch c rest = .enterString r) : r = rest := by
  unfold dispatch at h
  repeat' split at h
  all_goals first
    | (injection h with h1; exact h1.symm)
    | exact Dispatched.noConfusion h

/-- Tokenizing only consumes from the front: any rest returned by a run
is reached by dropping already-consumed characters from its input. -/
theorem run_restOf_suffix :
    ∀ (fuel : Nat) (job : Job) (rest : Input),
      (run fuel job).restOf = some rest → ∃ pre, job.inputOf = pre ++ rest := by
  intro fuel
  induction fuel with
  | zero =>
      intro job rest h
      exact Option.noConfusion h
  | succ fuel ih =>
      intro job rest h
      cases job with
      | one depth input =>
          rw [run_one_eq] at h
          split at h
          · injection h with h1
            rw [← h1]
            exact pre_nil input
          · rename_i c r0 heq0
            split at h
            · rename_i t r1 hd
              injection h with h1
              rw [← h1]
              refine pre_trans (pre_dropWhile isWsChar input) ?_
              rw [heq0]
              exact dispatch_suffix hd
            · rename_i r1 hd
              refine pre_trans (pre_dropWhile isWsChar input) ?_
              rw [heq0]
              refine pre_step ?_
              rw [← dispatch_enterString hd]
              exact ih _ rest h
      | str depth input cur acc =>
          rw [run_str_eq] at h
          split at h
          · injection h with h1
            rw [← h1]
            exact pre_nil _
          · injection h with h1
            rw [← h1]
            exact pre_cons _ _
          · rename_i r1
            split at h
            · injection h with h1
              rw [← h1]
              exact pre_nil _
            · rename_i e r2 heqE
              exact pre_step (pre_trans (scanEscape_suffix r1 heqE) (ih _ rest h))
          · rename_i r1
            split at h
            · exact Option.noConfusion h
            · split at h
              · rename_i ts r2 heqI
                have h2 : ∃ p, r1 = p ++ r2 :=
                  ih (.interp (depth + 1) r1 0 []) r2 (by simp [heqI, Res.restOf])
                exact pre_step (pre_step (pre_trans h2 (ih _ rest h)))
              · exact Option.noConfusion h
              · exact Option.noConfusion h
          · exact pre_step (ih _ rest h)
      | interp depth input braces acc =>
          rw [run_interp_eq] at h
          split at h
          · rename_i c r1 heqO
            split at h
            · split at h
              · injection h with h1
                rw [← h1]
                exact ih (.one depth input) r1 (by simp [heqO, Res.restOf])
              · exact pre_trans (ih (.one depth input) r1 (by simp [heqO, Res.restOf]))
                  (ih _ rest h)
            · split at h
              · exact pre_trans (ih (.one depth input) r1 (by simp [heqO, Res.restOf]))
                  (ih _ rest h)
              · exact pre_trans (ih (.one depth input) r1 (by simp [heqO, Res.restOf]))
                  (ih _ rest h)
          · rename_i r1 heqO
            injection h with h1
            rw [← h1]
            exact ih (.one depth input) r1 (by simp [heqO, Res.restOf])
          · rename_i t r1 hd1 hd2 heqO
            exact pre_trans (ih (.one depth input) r1 (by simp [heqO, Res.restOf]))
              (ih _ rest h)
          · exact Option.noConfusion h
          · exact Option.noConfusion h
      | top depth input acc =>
          rw [run_top_eq] at h
          split at h
          · exact Option.noConfusion h
          · rename_i t r1 hd1 heqO
            exact pre_trans (ih (.one depth input) r1 (by simp [heqO, Res.restOf]))
              (ih _ rest h)
          · exact Option.noConfusion h
          · exact Option.noConfusion h

/-- The interpolation loop is brace-balanced: the produced token sequence
extends the accumulator, the running brace depth never drops below zero on
any prefix, and when the loop stops with unconsumed input it stopped at a
closing brace with the depth back at zero, resuming right after it. -/
theorem interp_balance :
    ∀ (fuel : Nat) {depth braces : Nat} {input : Input}
      {acc toks : List Token} {rest : Input},
      run fuel (.interp depth input braces acc) = .toks toks rest →
      ∃ ts, toks = acc ++ ts ∧
        (∀ n, 0 ≤ (braces : Int) + braceDeltaList (ts.take n)) ∧
        (rest ≠ [] →
          (∃ pre, input = pre ++ '}' :: rest) ∧
          (braces : Int) + braceDeltaList ts = 0) := by
  intro fuel
  induction fuel with
  | zero =>
      intro depth braces input acc toks rest h
      exact Res.noConfusion h
  | succ fuel ih =>
      intro depth braces input acc toks rest h
      rw [run_interp_eq] at h
      split at h
      · rename_i c r1 heqO
        split at h
        · rename_i hc
          subst hc
          split at h
          · rename_i hb
            injection h with h1 h2
            refine ⟨[], by simp [← h1], ?_, ?_⟩
            · intro n
              simp only [List.take_nil, braceDeltaList, List.map_nil,
                List.sum_nil, add_zero]
              omega
            · intro hrest
              refine ⟨?_, ?_⟩
              · obtain ⟨p, hp⟩ := (run_one_tok heqO).2 _ rfl
                exact ⟨p, by rw [hp, h2]⟩
              · simp only [braceDeltaList, List.map_nil, List.sum_nil,
                  add_zero, hb]
                rfl
          · rename_i hb
            obtain ⟨ts2, h1, h2, h3⟩ := ih h
            refine ⟨.bracket '}' :: ts2, by rw [h1]; simp, ?_, ?_⟩
            · intro n
              cases n with
              | zero =>
                  simp only [List.take_zero, braceDeltaList, List.map_nil,
                    List.sum_nil, add_zero]
                  omega
              | succ m =>
                  have h2m := h2 m
                  simp only [List.take_succ_cons, braceDeltaList,
                    List.map_cons, List.sum_cons, braceDelta] at h2m ⊢
                  simp only [reduceIte]
                  omega
            · intro hrest
              obtain ⟨⟨q, hq⟩, hbal⟩ := h3 hrest
              refine ⟨?_, ?_⟩
              · exact pre_trans ⟨_, ((run_one_tok heqO).2 _ rfl).choose_spec⟩
                  (pre_step ⟨q, hq⟩)
              · simp only [braceDeltaList, List.map_cons, List.sum_cons,
                  braceDelta] at hbal ⊢
                rw [if_neg (show ¬(('}' : Char) = '{') by decide)]
                simp only [if_true]
                omega
        · rename_i hc
          split at h
          · rename_i hc2
            subst hc2
            obtain ⟨ts2, h1, h2, h3⟩ := ih h
            refine ⟨.bracket '{' :: ts2, by rw [h1]; simp, ?_, ?_⟩
            · intro n
              cases n with
              | zero =>
                  simp only [List.take_zero, braceDeltaList, List.map_nil,
                    List.sum_nil, add_zero]
                  omega
              | succ m =>
                  have h2m := h2 m
                  simp only [List.take_succ_cons, braceDeltaList,
                    List.map_cons, List.sum_cons, braceDelta] at h2m ⊢
                  simp only [reduceIte]
                  omega
            · intro hrest
              obtain ⟨⟨q, hq⟩, hbal⟩ := h3 hrest
              refine ⟨?_, ?_⟩
              · exact pre_trans ⟨_, ((run_one_tok heqO).2 _ rfl).choose_spec⟩
                  (pre_step ⟨q, hq⟩)
              · simp only [braceDeltaList, List.map_cons, List.sum_cons,
                  braceDelta] at hbal ⊢
                simp only [reduceIte]
                omega
          · rename_i hc2
            obtain ⟨ts2, h1, h2, h3⟩ := ih h
            refine ⟨.bracket c :: ts2, by rw [h1]; simp, ?_, ?_⟩
            · intro n
              cases n with
              | zero =>
                  simp only [List.take_zero, braceDeltaList, List.map_nil,
                    List.sum_nil, add_zero]
                  omega
              | succ m =>
                  have h2m := h2 m
                  simp only [List.take_succ_cons, braceDeltaList,
                    List.map_cons, List.sum_cons, braceDelta,
                    if_neg hc2, if_neg hc] at h2m ⊢
                  omega
            · intro hrest
              obtain ⟨⟨q, hq⟩, hbal⟩ := h3 hrest
              refine ⟨?_, ?_⟩
              · exact pre_trans ⟨_, ((run_one_tok heqO).2 _ rfl).choose_spec⟩
                  (pre_step ⟨q, hq⟩)
              · simp only [braceDeltaList, List.map_cons, List.sum_cons,
                  braceDelta, if_neg hc2, if_neg hc] at hbal ⊢
                omega
      · rename_i r1 heqO
        injection h with h1 h2
        refine ⟨[], by simp [← h1], ?_, ?_⟩
        · intro n
          simp only [List.take_nil, braceDeltaList, List.map_nil,
            List.sum_nil, add_zero]
          omega
        · intro hrest
          rw [← h2] at hrest
          exact absurd ((run_one_tok heqO).1 rfl) hrest
      · rename_i t r1 hnb hne heqO
        obtain ⟨ts2, h1, h2, h3⟩ := ih h
        have hbd : braceDelta t = 0 := by
          cases t
          all_goals first
            | rfl
            | exact absurd rfl (hnb _)
            | exact absurd rfl hne
        refine ⟨t :: ts2, by rw [h1]; simp, ?_, ?_⟩
        · intro n
          cases n with
          | zero =>
              simp only [List.take_zero, braceDeltaList, List.map_nil,
                List.sum_nil, add_zero]
              omega
          | succ m =>
              have h2m := h2 m
              simp only [List.take_succ_cons, braceDeltaList,
                List.map_cons, List.sum_cons, hbd] at h2m ⊢
              omega
        · intro hrest
          obtain ⟨⟨q, hq⟩, hbal⟩ := h3 hrest
          refine ⟨?_, ?_⟩
          · exact pre_trans
              (run_restOf_suffix fuel (.one depth input) r1
                (by simp [heqO, Res.restOf])) ⟨q, hq⟩
          · simp only [braceDeltaList, List.map_cons, List.sum_cons,
              hbd] at hbal ⊢
            omega
      · exact Res.noConfusion h
      · exact Res.noConfusion h

/-- C1: an interpolation region is closed only at the brace-balanced
closing brace.  First conjunct: for any run of the interpolation loop
started at depth count zero that returns a token sequence, the running
brace depth over every prefix of the sequence stays non-negative (nested
brackets are emitted and depth-counted, so an inner closing brace cannot
close the region), and if the loop stops with input remaining, the
remaining input starts immediately after a closing brace at which the
depth returned to zero.  Second conjunct: the ten-character input with
the marker, 1+2 and a closing brace yields exactly one String token of
three segments: literal a, the embedded Number, Operator, Number tokens
of 1+2, literal b.  Third conjunct: a nested inner brace pair inside a
region does not prematurely close it. -/
theorem claim_C1 :
    (∀ (fuel depth : Nat) (input : Input) (toks : List Token) (rest : Input),
       run fuel (.interp depth input 0 []) = .toks toks rest →
       (∀ n, 0 ≤ braceDeltaList (toks.take n)) ∧
       (rest ≠ [] →
         (∃ pre, input = pre ++ '}' :: rest) ∧ braceDeltaList toks = 0)) ∧
    tokenize 200 ['"', 'a', '#', '{', '1', '+', '2', '}', 'b', '"'] =
      .stream [.string [.literal ['a'],
                        .interpolation [.number .Decimal false ['1'],
                                        .operator ['+'],
                                        .number .Decimal false ['2']],
                        .literal ['b']], .endOfInput] ∧
    tokenize 200 ['"', 'x', '#', '{', '{', '1', '}', '}', 'y', '"'] =
      .stream [.string [.literal ['x'],
                        .interpolation [.bracket '{',
                                        .number .Decimal false ['1'],
                                        .bracket '}'],
                        .literal ['y']], .endOfInput] := by
  refine ⟨?_, rfl, rfl⟩
  intro fuel depth input toks rest h
  obtain ⟨ts, h1, h2, h3⟩ := interp_balance fuel h
  rw [List.nil_append] at h1
  subst h1
  refine ⟨fun n => by simpa using h2 n, fun hrest => ?_⟩
  obtain ⟨hpre, hbal⟩ := h3 hrest
  exact ⟨hpre, by simpa using hbal⟩

/-- Witness: the interpolation loop on the tail of the example, with the
balance facts instantiated there. -/
theorem claim_C1_witness :
    run 100 (.interp 1 ['1', '+', '2', '}', 'b', '"'] 0 []) =
      .toks [.number .Decimal false ['1'], .operator ['+'],
             .number .Decimal false ['2']] ['b', '"'] ∧
    ((∀ n, 0 ≤ braceDeltaList
        (([.number .Decimal false ['1'], .operator ['+'],
           .number .Decimal false ['2']] : List Token).take n)) ∧
     ((['b', '"'] : Input) ≠ [] →
       (∃ pre, (['1', '+', '2', '}', 'b', '"'] : Input) =
          pre ++ '}' :: ['b', '"']) ∧
       braceDeltaList [.number .Decimal false ['1'], .operator ['+'],
           .number .Decimal false ['2']] = 0)) :=
  ⟨rfl, claim_C1.1 100 1 ['1', '+', '2', '}', 'b', '"'] _ _ rfl⟩

end Pebble
